import Mathlib

/-!
Verification of the GameAnalysis repository against its specification.

The development shallowly embeds the two source layers the claims touch:

* `src/RoleSymmetricGame.py` — the dictionary-based role-symmetric game
  (`SymmetricProfile`, `mixture`, `Game` with `allProfiles`, `subgame`,
  `getPayoff`, `game_size`/`nCr`);
* `src/gameanalysis/dominance.py` — the vectorized dominance engine
  (`_weak_dominance`, `_strict_dominance`, `_never_best_response`,
  `iterated_elimination`).

Machine floats are embedded as rationals (`ℚ`); a float that may be NaN is
embedded as `Option ℚ` with `none` playing the role of NaN (numpy comparisons
with NaN are false, `np.isnan` detects it, `np.fmax` ignores it — each of
these is modelled explicitly below).  Code that raises is embedded with
`Except Unit`.  Arrays are embedded as (role-)nested lists; the flat
numpy arrays of `dominance.py` are indexed by role blocks computed from
`num_role_strats` via `repeat`/`cumsum`/`reduceat`, which corresponds exactly
to the nested-list layout used here (one list per role, one entry per
strategy, one deviation slot per same-role target distinct from the source).
-/

namespace GameAnalysis

/-! ### `mixture.__new__` (src/RoleSymmetricGame.py lines 136-142)

`mixture(strategies, probabilities)` clips negative entries to 0; if the
maximum of the clipped array is 0 it refills the array with ones; then it
divides by the sum.  The strategy labels do not affect the numeric vector, so
the embedding keeps only the probability list. -/

/-- Maximum of a list, as `numpy.ndarray.max` computes it on a non-empty
array (on an empty array numpy raises; the embedding returns the default
head `0` there, a case excluded by the hypotheses of every theorem using
this). -/
def npMax (l : List ℚ) : ℚ :=
  l.foldr max (l.headD 0)

/-- Embedding of `mixture.__new__`, first step: `clip(0)` on the input
probabilities. -/
def clipped (probabilities : List ℚ) : List ℚ :=
  probabilities.map (fun x => max x 0)

/-- Embedding of `mixture.__new__`, second step: `if a.max() == 0: a.fill(1)`. -/
def refilled (probabilities : List ℚ) : List ℚ :=
  if npMax (clipped probabilities) = 0 then
    (clipped probabilities).map (fun _ => (1 : ℚ))
  else clipped probabilities

/-- Embedding of `mixture.__new__`: clip to non-negative, refill with ones
when everything clipped to zero, then normalize by the sum (`a / a.sum()`). -/
def mixtureNew (probabilities : List ℚ) : List ℚ :=
  (refilled probabilities).map (fun x => x / (refilled probabilities).sum)

lemma foldr_max_le {l : List ℚ} {i : ℚ} : ∀ x ∈ l, x ≤ l.foldr max i := by
  induction l with
  | nil => intro x hx; cases hx
  | cons a t ih =>
    intro x hx
    rcases List.mem_cons.mp hx with rfl | hx
    · exact le_max_left _ _
    · exact le_trans (ih x hx) (le_max_right _ _)

lemma foldr_max_mem {l : List ℚ} {i : ℚ} :
    l.foldr max i = i ∨ l.foldr max i ∈ l := by
  induction l with
  | nil => exact Or.inl rfl
  | cons a t ih =>
    simp only [List.foldr_cons]
    rcases max_choice a (t.foldr max i) with h | h
    · rw [h]; exact Or.inr (List.mem_cons_self _ _)
    · rw [h]
      rcases ih with hi | hi
      · exact Or.inl hi
      · exact Or.inr (List.mem_cons_of_mem _ hi)

lemma npMax_mem {l : List ℚ} (h : l ≠ []) : npMax l ∈ l := by
  unfold npMax
  rcases foldr_max_mem (l := l) (i := l.headD 0) with hm | hm
  · rw [hm]
    cases l with
    | nil => exact absurd rfl h
    | cons a t => exact List.mem_cons_self _ _
  · exact hm

lemma le_npMax {l : List ℚ} : ∀ x ∈ l, x ≤ npMax l :=
  fun x hx => foldr_max_le x hx

lemma sum_map_div (l : List ℚ) (c : ℚ) :
    (l.map (fun x => x / c)).sum = l.sum / c := by
  induction l with
  | nil => simp
  | cons a t ih => simp [ih, add_div]

lemma sum_map_one (l : List ℚ) : (l.map (fun _ => (1 : ℚ))).sum = l.length := by
  induction l with
  | nil => simp
  | cons a t ih => simp [ih, add_comm]

lemma sum_pos_of_mem {l : List ℚ} (hnn : ∀ x ∈ l, 0 ≤ x) {y : ℚ}
    (hy : y ∈ l) (hpos : 0 < y) : 0 < l.sum := by
  induction l with
  | nil => cases hy
  | cons a t ih =>
    rcases List.mem_cons.mp hy with rfl | hy
    · have : (0 : ℚ) ≤ t.sum :=
        List.sum_nonneg (fun x hx => hnn x (List.mem_cons_of_mem _ hx))
      simpa [List.sum_cons] using add_pos_of_pos_of_nonneg hpos this
    · have ha : (0 : ℚ) ≤ a := hnn a (List.mem_cons_self _ _)
      have ht : 0 < t.sum := ih (fun x hx => hnn x (List.mem_cons_of_mem _ hx)) hy
      simpa [List.sum_cons] using add_pos_of_nonneg_of_pos ha ht

lemma refilled_nonneg (probabilities : List ℚ) :
    ∀ x ∈ refilled probabilities, 0 ≤ x := by
  intro x hx
  unfold refilled at hx
  by_cases hmax : npMax (clipped probabilities) = 0
  · rw [if_pos hmax] at hx
    rcases List.mem_map.mp hx with ⟨y, _, rfl⟩
    norm_num
  · rw [if_neg hmax] at hx
    rcases List.mem_map.mp hx with ⟨y, _, rfl⟩
    exact le_max_right _ _

lemma refilled_sum_pos (probabilities : List ℚ) (h : probabilities ≠ []) :
    0 < (refilled probabilities).sum := by
  have hcne : clipped probabilities ≠ [] := by
    intro hcon
    exact h (List.map_eq_nil_iff.mp hcon)
  have hcnn : ∀ x ∈ clipped probabilities, 0 ≤ x := by
    intro x hx
    rcases List.mem_map.mp hx with ⟨y, _, rfl⟩
    exact le_max_right _ _
  unfold refilled
  by_cases hmax : npMax (clipped probabilities) = 0
  · rw [if_pos hmax, sum_map_one]
    exact_mod_cast List.length_pos.mpr hcne
  · rw [if_neg hmax]
    have hmem := npMax_mem hcne
    exact sum_pos_of_mem hcnn hmem (lt_of_le_of_ne (hcnn _ hmem) (Ne.symm hmax))

/-- C9: the output of the `mixture` constructor is entrywise non-negative
and sums to 1, for every non-empty real input vector — including vectors
with negative entries, which are clipped to 0 before normalization (numpy
raises on an empty vector, hence the non-emptiness hypothesis). -/
theorem mixtureNew_nonneg_sum_one (probabilities : List ℚ)
    (h : probabilities ≠ []) :
    (∀ x ∈ mixtureNew probabilities, 0 ≤ x) ∧ (mixtureNew probabilities).sum = 1 := by
  have hpos := refilled_sum_pos probabilities h
  unfold mixtureNew
  constructor
  · intro x hx
    rcases List.mem_map.mp hx with ⟨y, hy, rfl⟩
    exact div_nonneg (refilled_nonneg probabilities y hy) (le_of_lt hpos)
  · rw [sum_map_div, div_self (ne_of_gt hpos)]

/-- Witness for C9, on the example from the constructor's docstring:
`mixture(range(-2, 5))`. -/
theorem mixtureNew_nonneg_sum_one_witness :
    ([-2, -1, 0, 1, 2, 3, 4] : List ℚ) ≠ [] ∧
      ((∀ x ∈ mixtureNew [-2, -1, 0, 1, 2, 3, 4], 0 ≤ x) ∧
        (mixtureNew ([-2, -1, 0, 1, 2, 3, 4] : List ℚ)).sum = 1) :=
  ⟨by decide, mixtureNew_nonneg_sum_one [-2, -1, 0, 1, 2, 3, 4] (by decide)⟩

/-! ### `SymmetricProfile.__new__` (src/RoleSymmetricGame.py lines 27-32)

`SymmetricProfile(strategies)` is `tuple.__new__(self, sorted(strategies))`:
the constructor canonically sorts its input. -/

/-- Embedding of `SymmetricProfile.__new__`: the sorted tuple of the input
strategies (Python `sorted` over a total order). -/
def symmetricProfileNew {α : Type} [LinearOrder α] (strategies : List α) : List α :=
  List.insertionSort (fun x y => x ≤ y) strategies

/-- C10: constructing a `SymmetricProfile` from any permutation of the same
strategy list yields the same profile — identity is insensitive to the order
in which player strategies are listed. -/
theorem symmetricProfileNew_perm_eq {α : Type} [LinearOrder α]
    (xs ys : List α) (h : xs.Perm ys) :
    symmetricProfileNew xs = symmetricProfileNew ys := by
  have h1 := List.sorted_insertionSort (fun x y : α => x ≤ y) xs
  have h2 := List.sorted_insertionSort (fun x y : α => x ≤ y) ys
  have hp : (symmetricProfileNew xs).Perm (symmetricProfileNew ys) :=
    ((List.perm_insertionSort _ xs).trans h).trans
      (List.perm_insertionSort _ ys).symm
  exact List.eq_of_perm_of_sorted hp h1 h2

/-- Witness for C10 at a concrete permutation pair. -/
theorem symmetricProfileNew_perm_eq_witness :
    ([3, 1, 2] : List ℕ).Perm [2, 3, 1] ∧
      symmetricProfileNew ([3, 1, 2] : List ℕ) = symmetricProfileNew [2, 3, 1] :=
  ⟨by decide, symmetricProfileNew_perm_eq _ _ (by decide)⟩

/-! ### `nCr` and `game_size` (src/RoleSymmetricGame.py lines 9-19)

`nCr(n, k) = reduce(mul, range(n-k+1, n+1)) / factorial(k)` under Python 2
integer division.  For `k ≤ n` the numerator is the descending factorial
`n·(n-1)⋯(n-k+1)`; Python raises a `TypeError` for `k = 0` (`reduce` of an
empty range), a case excluded by the player-count hypotheses below. -/

/-- Embedding of `nCr`: product of `range(n-k+1, n+1)` divided by `k!`
(natural division, matching Python 2 `/` on non-negative integers). -/
def nCr (n k : ℕ) : ℕ :=
  (List.range' (n - k + 1) k).prod / k.factorial

/-- Embedding of `game_size`: number of profiles of a symmetric game with
`n` players and `s` strategies, computed as `nCr(n+s-1, n)`. -/
def game_size (n s : ℕ) : ℕ :=
  nCr (n + s - 1) n

lemma range'_prod_eq_descFactorial {n : ℕ} :
    ∀ {k : ℕ}, k ≤ n → (List.range' (n - k + 1) k).prod = n.descFactorial k := by
  intro k
  induction k with
  | zero => intro _; simp
  | succ k ih =>
    intro hk
    have h1 : n - (k + 1) + 1 = n - k := by omega
    rw [List.range'_succ, List.prod_cons, h1, Nat.descFactorial_succ]
    have h2 : n - k + 1 = n - (k - 0) + 1 := by omega
    have h3 : (List.range' (n - k + 1) k).prod = n.descFactorial k :=
      ih (le_of_lt (Nat.lt_of_succ_le hk))
    rw [h3]

lemma nCr_eq_choose {n k : ℕ} (hk : k ≤ n) : nCr n k = n.choose k := by
  rw [nCr, range'_prod_eq_descFactorial hk,
    Nat.choose_eq_descFactorial_div_factorial]

lemma game_size_eq_choose {n s : ℕ} (hn : 1 ≤ n) (hs : 1 ≤ s) :
    game_size n s = (n + s - 1).choose n := by
  have h : n ≤ n + s - 1 := by omega
  rw [game_size, nCr_eq_choose h]

/-! ### `combinations_with_replacement` and `itertools.product`

`Game.allProfiles` (src/RoleSymmetricGame.py lines 243-246) enumerates, per
role, `SymmetricProfile(s)` for every multiset `s` produced by
`itertools.combinations_with_replacement(strategies, count)`, and takes the
cartesian product across roles.  `cwr` and `cartProd` embed the two
itertools enumerations. -/

/-- Helper for `cwr` on a non-empty list `x :: xs`: `tailFn` is the
enumeration for the tail `xs`.  Split off so that both functions are
structurally recursive (and hence evaluate by `decide`/`rfl`). -/
def cwrCons {α : Type} (x : α) (xs : List α)
    (tailFn : ℕ → List (List α)) : ℕ → List (List α)
  | 0 => [[]]
  | n + 1 => ((cwrCons x xs tailFn n).map (fun t => x :: t)) ++ tailFn (n + 1)

/-- Embedding of `itertools.combinations_with_replacement`: all
non-decreasing-index selections of `n` elements from `l` (either the head
is used at least once, or the selection draws from the tail). -/
def cwr {α : Type} : List α → ℕ → List (List α)
  | [], 0 => [[]]
  | [], _ + 1 => []
  | x :: xs, n => cwrCons x xs (cwr xs) n

/-- Embedding of `itertools.product` over a list of lists (first factor
varies slowest, as in Python). -/
def cartProd {α : Type} : List (List α) → List (List α)
  | [] => [[]]
  | l :: ls => l.flatMap (fun x => (cartProd ls).map (fun t => x :: t))

lemma length_cwrCons {α : Type} (x : α) (xs : List α)
    (tailFn : ℕ → List (List α))
    (htail : ∀ m, (tailFn m).length = (m + xs.length - 1).choose m) :
    ∀ n, (cwrCons x xs tailFn n).length = (n + xs.length).choose n := by
  intro n
  induction n with
  | zero => simp [cwrCons]
  | succ n ih =>
    rw [cwrCons]
    simp only [List.length_append, List.length_map, ih, htail]
    have h3 : n + 1 + xs.length - 1 = n + xs.length := by omega
    have h4 : n + 1 + xs.length = (n + xs.length) + 1 := by omega
    rw [h3, h4, Nat.choose_succ_succ]

lemma length_cwr {α : Type} :
    ∀ (l : List α) (n : ℕ), (cwr l n).length = (n + l.length - 1).choose n := by
  intro l
  induction l with
  | nil =>
    intro n
    cases n with
    | zero => simp [cwr]
    | succ n => simp [cwr, Nat.choose_eq_zero_of_lt]
  | cons x xs ih =>
    intro n
    have h : n + (x :: xs).length - 1 = n + xs.length := by
      simp only [List.length_cons]; omega
    rw [cwr, h, length_cwrCons x xs (cwr xs) ih]

lemma mem_cwrCons_subset {α : Type} {x : α} {xs : List α}
    {tailFn : ℕ → List (List α)}
    (htail : ∀ m y, y ∈ tailFn m → ∀ a ∈ y, a ∈ xs) :
    ∀ n y, y ∈ cwrCons x xs tailFn n → ∀ a ∈ y, a ∈ x :: xs := by
  intro n
  induction n with
  | zero =>
    intro y hy a ha
    simp only [cwrCons, List.mem_singleton] at hy
    subst hy
    cases ha
  | succ n ih =>
    intro y hy a ha
    rw [cwrCons, List.mem_append] at hy
    rcases hy with hy | hy
    · rcases List.mem_map.mp hy with ⟨t, ht, rfl⟩
      rcases List.mem_cons.mp ha with rfl | ha
      · exact List.mem_cons_self _ _
      · exact ih t ht a ha
    · exact List.mem_cons_of_mem _ (htail _ y hy a ha)

lemma mem_cwr_subset {α : Type} :
    ∀ (l : List α) (n : ℕ) (y : List α), y ∈ cwr l n → ∀ a ∈ y, a ∈ l := by
  intro l
  induction l with
  | nil =>
    intro n y hy
    cases n with
    | zero =>
      simp only [cwr, List.mem_singleton] at hy
      subst hy
      intro a ha
      cases ha
    | succ n => simp [cwr] at hy
  | cons x xs ih =>
    intro n y hy
    exact mem_cwrCons_subset (fun m => ih m) n y hy

lemma length_mem_cwrCons {α : Type} {x : α} {xs : List α}
    {tailFn : ℕ → List (List α)}
    (htail : ∀ m y, y ∈ tailFn m → y.length = m) :
    ∀ n y, y ∈ cwrCons x xs tailFn n → y.length = n := by
  intro n
  induction n with
  | zero =>
    intro y hy
    simp only [cwrCons, List.mem_singleton] at hy
    subst hy; rfl
  | succ n ih =>
    intro y hy
    rw [cwrCons, List.mem_append] at hy
    rcases hy with hy | hy
    · rcases List.mem_map.mp hy with ⟨t, ht, rfl⟩
      simp [ih t ht]
    · exact htail _ y hy

lemma length_mem_cwr {α : Type} :
    ∀ (l : List α) (n : ℕ) (y : List α), y ∈ cwr l n → y.length = n := by
  intro l
  induction l with
  | nil =>
    intro n y hy
    cases n with
    | zero =>
      simp only [cwr, List.mem_singleton] at hy
      subst hy; rfl
    | succ n => simp [cwr] at hy
  | cons x xs ih =>
    intro n y hy
    exact length_mem_cwrCons (fun m => ih m) n y hy

lemma nodup_cwrCons {α : Type} {x : α} {xs : List α}
    {tailFn : ℕ → List (List α)}
    (hsub : ∀ m y, y ∈ tailFn m → ∀ a ∈ y, a ∈ xs)
    (hnd : ∀ m, (tailFn m).Nodup) (hx : x ∉ xs) :
    ∀ n, (cwrCons x xs tailFn n).Nodup := by
  intro n
  induction n with
  | zero => simp [cwrCons]
  | succ n ih =>
    rw [cwrCons, List.nodup_append]
    refine ⟨?_, hnd _, ?_⟩
    · exact ih.map (fun a b hab => by injection hab)
    · intro y hy1 hy2
      rcases List.mem_map.mp hy1 with ⟨t, _, rfl⟩
      exact hx (hsub _ (x :: t) hy2 x (List.mem_cons_self _ _))

lemma nodup_cwr {α : Type} :
    ∀ (l : List α) (n : ℕ), l.Nodup → (cwr l n).Nodup := by
  intro l
  induction l with
  | nil =>
    intro n _
    cases n with
    | zero => simp [cwr]
    | succ n => simp [cwr]
  | cons x xs ih =>
    intro n hnd
    rw [cwr]
    exact nodup_cwrCons (fun m => mem_cwr_subset xs m)
      (fun m => ih m (List.nodup_cons.mp hnd).2) (List.nodup_cons.mp hnd).1 n

lemma sorted_mem_cwrCons {α : Type} [LinearOrder α] {x : α} {xs : List α}
    {tailFn : ℕ → List (List α)}
    (hsub : ∀ m y, y ∈ tailFn m → ∀ a ∈ y, a ∈ xs)
    (hts : ∀ m y, y ∈ tailFn m → y.Sorted (fun a b => a ≤ b))
    (hxle : ∀ b ∈ xs, x ≤ b) :
    ∀ n y, y ∈ cwrCons x xs tailFn n → y.Sorted (fun a b => a ≤ b) := by
  intro n
  induction n with
  | zero =>
    intro y hy
    simp only [cwrCons, List.mem_singleton] at hy
    subst hy
    exact List.sorted_nil
  | succ n ih =>
    intro y hy
    rw [cwrCons, List.mem_append] at hy
    rcases hy with hy | hy
    · rcases List.mem_map.mp hy with ⟨t, ht, rfl⟩
      rw [List.sorted_cons]
      constructor
      · intro b hb
        have hbl : b ∈ x :: xs :=
          mem_cwrCons_subset hsub n t ht b hb
        rcases List.mem_cons.mp hbl with rfl | hbl
        · exact le_refl b
        · exact hxle b hbl
      · exact ih t ht
    · exact hts _ y hy

lemma sorted_mem_cwr {α : Type} [LinearOrder α] :
    ∀ (l : List α) (n : ℕ), l.Sorted (fun a b => a ≤ b) →
      ∀ y ∈ cwr l n, y.Sorted (fun a b => a ≤ b) := by
  intro l
  induction l with
  | nil =>
    intro n _ y hy
    cases n with
    | zero =>
      simp only [cwr, List.mem_singleton] at hy
      subst hy
      exact List.sorted_nil
    | succ n => simp [cwr] at hy
  | cons x xs ih =>
    intro n hs y hy
    rw [cwr] at hy
    exact sorted_mem_cwrCons (fun m => mem_cwr_subset xs m)
      (fun m => ih m (List.sorted_cons.mp hs).2) (List.sorted_cons.mp hs).1 n y hy

lemma length_cartProd {α : Type} :
    ∀ ls : List (List α), (cartProd ls).length = (ls.map List.length).prod := by
  intro ls
  induction ls with
  | nil => simp [cartProd]
  | cons l ls ih =>
    rw [cartProd, List.length_flatMap]
    simp [ih, Function.comp]
    induction l with
    | nil => simp
    | cons a t iht =>
      simp only [List.map_cons, List.sum_cons, iht, Function.comp,
        List.length_map, List.length_cons]
      rw [ih]
      ring

lemma mem_cartProd_length {α : Type} :
    ∀ (ls : List (List α)) (p : List α), p ∈ cartProd ls → p.length = ls.length := by
  intro ls
  induction ls with
  | nil =>
    intro p hp
    simp only [cartProd, List.mem_singleton] at hp
    subst hp; rfl
  | cons l ls ih =>
    intro p hp
    rcases List.mem_flatMap.mp hp with ⟨x, _, hmem⟩
    rcases List.mem_map.mp hmem with ⟨t, ht, rfl⟩
    simp [ih t ht]

lemma nodup_cartProd {α : Type} :
    ∀ ls : List (List α), (∀ l ∈ ls, l.Nodup) → (cartProd ls).Nodup := by
  intro ls
  induction ls with
  | nil => intro _; simp [cartProd]
  | cons l ls ih =>
    intro h
    have hl : l.Nodup := h l (List.mem_cons_self _ _)
    have hrest : (cartProd ls).Nodup := ih (fun m hm => h m (List.mem_cons_of_mem _ hm))
    rw [cartProd]
    clear ih h
    induction l with
    | nil => simp
    | cons a t iht =>
      rw [List.flatMap_cons, List.nodup_append]
      have hanotmem : a ∉ t := (List.nodup_cons.mp hl).1
      refine ⟨?_, ?_, ?_⟩
      · exact hrest.map (fun u v huv => by injection huv)
      · exact iht (List.nodup_cons.mp hl).2
      · intro y hy1 hy2
        rcases List.mem_map.mp hy1 with ⟨u, _, rfl⟩
        rcases List.mem_flatMap.mp hy2 with ⟨b, hb, hmem⟩
        rcases List.mem_map.mp hmem with ⟨v, _, hav⟩
        have : a = b := by injection hav.symm
        exact hanotmem (this ▸ hb)

lemma cartProd_ne_nil {α : Type} :
    ∀ ls : List (List α), (∀ l ∈ ls, l ≠ []) → cartProd ls ≠ [] := by
  intro ls
  induction ls with
  | nil => intro _; simp [cartProd]
  | cons l ls ih =>
    intro h
    have hl : l ≠ [] := h l (List.mem_cons_self _ _)
    have hrest : cartProd ls ≠ [] := ih (fun m hm => h m (List.mem_cons_of_mem _ hm))
    rw [cartProd]
    cases l with
    | nil => exact absurd rfl hl
    | cons a t =>
      rw [List.flatMap_cons]
      intro hcon
      rcases List.append_eq_nil.mp hcon with ⟨h1, _⟩
      exact hrest (List.map_eq_nil_iff.mp h1)


lemma cwrCons_ne_nil {α : Type} {x : α} {xs : List α}
    {tailFn : ℕ → List (List α)} : ∀ n, cwrCons x xs tailFn n ≠ [] := by
  intro n
  induction n with
  | zero => simp [cwrCons]
  | succ n ih =>
    rw [cwrCons]
    intro hcon
    rcases List.append_eq_nil.mp hcon with ⟨h1, _⟩
    exact ih (List.map_eq_nil_iff.mp h1)

lemma cwr_ne_nil {α : Type} :
    ∀ (l : List α) (n : ℕ), l ≠ [] → cwr l n ≠ [] := by
  intro l n h
  cases l with
  | nil => exact absurd rfl h
  | cons x xs =>
    rw [cwr]
    exact cwrCons_ne_nil n

/-! ### The dictionary-based `Game` (src/RoleSymmetricGame.py lines 187-264)

A role-symmetric game stores roles (sorted, deduplicated names), per-role
player counts, per-role strategy name tuples (sorted, deduplicated), and a
payoff dictionary from profiles to role-to-strategy-to-float maps.  The
embedding uses association lists in the game's canonical role order; a
`Profile` is the association list from role names to `SymmetricProfile`s
(sorted strategy lists), which is the canonical form Python's dict equality
compares.  Python's names are strings; the embedding abstracts them to any
linearly ordered type `α` (Lean's kernel cannot evaluate `String`
comparisons, so concrete witnesses use `ℕ` names). -/

/-- A role-symmetric profile: roles in game order, each with its sorted
symmetric profile (one strategy name per player of the role). -/
abbrev OldProfile (α : Type) := List (α × List α)

/-- A payoff dictionary entry: role to strategy to payoff. -/
abbrev PayoffRow (α : Type) := List (α × List (α × ℚ))

/-- Embedding of the `Game` object's fields. -/
structure OldGame (α : Type) where
  roles : List α
  counts : List (α × ℕ)
  strategies : List (α × List α)
  payoffs : List (OldProfile α × PayoffRow α)

/-- Dictionary lookup in an association list (Python `d[k]` returns the
first binding; `none` embeds the `KeyError` case). -/
def alookup {α β : Type} [DecidableEq α] (k : α) : List (α × β) → Option β
  | [] => none
  | (k2, v) :: t => if k = k2 then some v else alookup k t

/-- Python `sorted(set(l))`: deduplicate, then sort. -/
def dedupSort {α : Type} [LinearOrder α] (l : List α) : List α :=
  List.insertionSort (fun x y => x ≤ y) l.dedup

/-- Player count of a role (`self.counts[r]`; Python raises `KeyError` when
the role is missing, a case no theorem below exercises — the embedding
defaults to 0 there). -/
def countOf {α : Type} [LinearOrder α] (g : OldGame α) (r : α) : ℕ :=
  (alookup r g.counts).getD 0

/-- Strategy tuple of a role (`self.strategies[r]`, same `KeyError` caveat
as `countOf`). -/
def stratsOf {α : Type} [LinearOrder α] (g : OldGame α) (r : α) : List α :=
  (alookup r g.strategies).getD []

/-- Embedding of `Game.__init__`: sort and deduplicate the role names, keep
one count per role, sort and deduplicate each role's strategy names, and
install the payoff dictionary unchanged (`dict.update(self, payoffs)`). -/
def mkGame {α : Type} [LinearOrder α] (roles : List α) (counts : List (α × ℕ))
    (strategies : List (α × List α))
    (payoffs : List (OldProfile α × PayoffRow α)) : OldGame α :=
  let rs := dedupSort roles
  { roles := rs
    counts := rs.map (fun r => (r, (alookup r counts).getD 0))
    strategies := rs.map (fun r => (r, dedupSort ((alookup r strategies).getD [])))
    payoffs := payoffs }

/-- Embedding of `self.size = reduce(mul, map(lambda r: game_size(...),
self.roles))` (Python raises on an empty role list, where this returns 1). -/
def OldGame.size {α : Type} [LinearOrder α] (g : OldGame α) : ℕ :=
  (g.roles.map (fun r => game_size (countOf g r) (stratsOf g r).length)).prod

/-- Embedding of `Game.allProfiles`: per role, `SymmetricProfile(s)` for
each combination-with-replacement `s` of the role's strategies, then the
cartesian product across roles zipped back with the role names. -/
def OldGame.allProfiles {α : Type} [LinearOrder α] (g : OldGame α) :
    List (OldProfile α) :=
  (cartProd (g.roles.map (fun r =>
    (cwr (stratsOf g r) (countOf g r)).map (fun s => symmetricProfileNew s)))).map
    (fun p => g.roles.zip p)

/-- Dictionary lookup of a profile's payoff row (`profile in self` /
`self[profile]`). -/
def lookupProfile {α : Type} [DecidableEq α]
    (payoffs : List (OldProfile α × PayoffRow α)) (p : OldProfile α) :
    Option (PayoffRow α) :=
  (payoffs.find? (fun pr => decide (pr.1 = p))).map (fun pr => pr.2)

/-- Embedding of the dict comprehension `{p: self[p] for p in
g.allProfiles()}` inside `Game.subgame`: `none` when some required profile
is missing from the payoff dictionary (Python raises `KeyError` there). -/
def collectPayoffs {α : Type} [DecidableEq α] (g : OldGame α) :
    List (OldProfile α) → Option (List (OldProfile α × PayoffRow α))
  | [] => some []
  | p :: ps =>
    match lookupProfile g.payoffs p with
    | some row => (collectPayoffs g ps).map (fun rest => (p, row) :: rest)
    | none => none

/-- Embedding of `Game.subgame(roles=[], strategies={})` with the roles
argument left at its default (so the sub-game keeps all of the game's
roles, as in every use the claim is about): build a fresh game over the
selected strategies, then `update` it with the payoff row of each of its
profiles, raising (`Except.error`) when one is missing. -/
def OldGame.subgame {α : Type} [LinearOrder α] (g : OldGame α)
    (strategies : List (α × List α)) : Except Unit (OldGame α) :=
  let strategies :=
    if strategies.isEmpty then g.roles.map (fun r => (r, ([] : List α)))
    else strategies
  let sub := mkGame g.roles (g.roles.map (fun r => (r, countOf g r))) strategies []
  match collectPayoffs g sub.allProfiles with
  | some rows => Except.ok { sub with payoffs := rows }
  | none => Except.error ()

/-- Embedding of the pure-strategy path of `Game.getPayoff` (lines
287-293): look up `self[profile][role][strategy]` and re-raise the
`KeyError` when the profile (or role or strategy key) is absent and neither
the strategy nor the profile is mixed.  The claim under verification
concerns pure profiles only, so the mixed-strategy expected-payoff branch
(lines 294-320), guarded by `isinstance(..., mixture)` tests that are false
for pure data, is not reached and is not modelled. -/
def OldGame.getPayoff {α : Type} [LinearOrder α] (g : OldGame α)
    (p : OldProfile α) (role strategy : α) : Except Unit ℚ :=
  match lookupProfile g.payoffs p with
  | some row =>
    match alookup role row with
    | some srow =>
      match alookup strategy srow with
      | some v => Except.ok v
      | none => Except.error ()
    | none => Except.error ()
  | none => Except.error ()

lemma symmetricProfileNew_eq_self {α : Type} [LinearOrder α] {y : List α}
    (h : y.Sorted (fun a b => a ≤ b)) : symmetricProfileNew y = y :=
  List.eq_of_perm_of_sorted (List.perm_insertionSort _ y)
    (List.sorted_insertionSort _ y) h

lemma alookup_map_self {α β : Type} [DecidableEq α] (rs : List α) (f : α → β)
    (r : α) (h : r ∈ rs) :
    alookup r (rs.map (fun x => (x, f x))) = some (f r) := by
  induction rs with
  | nil => cases h
  | cons a t ih =>
    rcases List.mem_cons.mp h with rfl | h
    · simp [alookup]
    · by_cases hra : r = a
      · subst hra; simp [alookup]
      · simp [alookup, hra, ih h]

lemma zip_inj {α β : Type} :
    ∀ (rs : List β) (p q : List α), p.length = rs.length →
      q.length = rs.length → rs.zip p = rs.zip q → p = q := by
  intro rs
  induction rs with
  | nil =>
    intro p q hp hq _
    simp only [List.length_nil] at hp hq
    rw [List.length_eq_zero] at hp hq
    rw [hp, hq]
  | cons a t ih =>
    intro p q hp hq hz
    cases p with
    | nil => simp at hp
    | cons x p2 =>
      cases q with
      | nil => simp at hq
      | cons y q2 =>
        simp only [List.zip_cons_cons, List.cons.injEq, Prod.mk.injEq] at hz
        rcases hz with ⟨⟨_, rfl⟩, hz⟩
        simp only [List.length_cons, Nat.succ.injEq] at hp hq
        rw [ih p2 q2 hp hq hz]

/-- C7 (amended): for a pure profile, `Game.getPayoff` returns the stored
payoff when the profile's row (with the role and strategy keys) is present
in the payoff dictionary, and raises `KeyError` (embedded as
`Except.error`) when the profile is absent — it does not return a NaN
row. -/
theorem getPayoff_stored_or_raises {α : Type} [LinearOrder α] (g : OldGame α)
    (p : OldProfile α) (role strategy : α) :
    (lookupProfile g.payoffs p = none →
      g.getPayoff p role strategy = Except.error ()) ∧
    (∀ row srow v, lookupProfile g.payoffs p = some row →
      alookup role row = some srow →
      alookup strategy srow = some v →
      g.getPayoff p role strategy = Except.ok v) := by
  constructor
  · intro h
    unfold OldGame.getPayoff
    rw [h]
  · intro row srow v h1 h2 h3
    simp [OldGame.getPayoff, h1, h2, h3]

/-- A concrete game for C7: one role `0` with one player and strategies
`0`, `1`; only the profile playing strategy `0` has a stored payoff row. -/
def g7 : OldGame ℕ :=
  { roles := [0]
    counts := [(0, 1)]
    strategies := [(0, [0, 1])]
    payoffs := [([(0, [0])], [(0, [(0, 3)])])] }

/-- Counterexample for C7: the valid pure profile in which the single
player plays strategy `1` has no stored row, and `getPayoff` raises
`KeyError` (`Except.error`) instead of returning the NaN-on-support row the
claim describes. -/
theorem getPayoff_absent_raises_cex :
    g7.getPayoff [(0, [1])] 0 1 = Except.error () := by rfl

/-- Witness for the amended C7 theorem, exercising both conjuncts: the
stored profile's payoff is returned, and the absent profile raises. -/
theorem getPayoff_stored_or_raises_witness :
    (lookupProfile g7.payoffs [(0, [1])] = none ∧
      g7.getPayoff [(0, [1])] 0 0 = Except.error ()) ∧
    (lookupProfile g7.payoffs [(0, [0])] = some [(0, [(0, 3)])] ∧
      g7.getPayoff [(0, [0])] 0 0 = Except.ok 3) :=
  ⟨⟨by rfl, (getPayoff_stored_or_raises g7 [(0, [1])] 0 0).1 (by rfl)⟩,
   ⟨by rfl, (getPayoff_stored_or_raises g7 [(0, [0])] 0 0).2
      [(0, [(0, 3)])] [(0, 3)] 3 (by rfl) (by rfl) (by rfl)⟩⟩

/-- C6 (amended): on a game with no stored payoff rows, `Game.subgame`
raises `KeyError` (embedded as `Except.error`) for every non-empty strategy
selection that gives each role at least one strategy — the dict
comprehension `{p: self[p] for p in g.allProfiles()}` looks up profiles
that cannot be present (as the method's docstring says, it "Raises a
KeyError if required profiles are missing"). -/
theorem subgame_of_empty_game_raises {α : Type} [LinearOrder α]
    (g : OldGame α) (strategies : List (α × List α))
    (hempty : g.payoffs = [])
    (hne : strategies.isEmpty = false)
    (hsel : ∀ r ∈ dedupSort g.roles,
      dedupSort ((alookup r strategies).getD []) ≠ []) :
    g.subgame strategies = Except.error () := by
  unfold OldGame.subgame
  simp only [hne, Bool.false_eq_true, if_false]
  have hprofs : (mkGame g.roles (g.roles.map (fun r => (r, countOf g r)))
      strategies []).allProfiles ≠ [] := by
    unfold OldGame.allProfiles
    intro hcon
    rw [List.map_eq_nil_iff] at hcon
    refine cartProd_ne_nil _ ?_ hcon
    intro l hl
    rcases List.mem_map.mp hl with ⟨r, hr, rfl⟩
    have hrg : r ∈ dedupSort g.roles := hr
    intro hmnil
    rw [List.map_eq_nil_iff] at hmnil
    refine cwr_ne_nil _ _ ?_ hmnil
    have : stratsOf (mkGame g.roles (g.roles.map (fun x => (x, countOf g x)))
        strategies []) r = dedupSort ((alookup r strategies).getD []) := by
      unfold stratsOf mkGame
      simp only
      rw [alookup_map_self (dedupSort g.roles)
        (fun x => dedupSort ((alookup x strategies).getD [])) r hrg]
      rfl
    rw [this]
    exact hsel r hrg
  cases happ : (mkGame g.roles (g.roles.map (fun r => (r, countOf g r)))
      strategies []).allProfiles with
  | nil => exact absurd happ hprofs
  | cons p ps =>
    have : lookupProfile g.payoffs p = none := by
      rw [hempty]; rfl
    simp only [collectPayoffs, this]

/-- A concrete empty game for C6: one role `0`, one player, strategies
`0`, `1`, no payoff rows. -/
def g6 : OldGame ℕ :=
  { roles := [0]
    counts := [(0, 1)]
    strategies := [(0, [0, 1])]
    payoffs := [] }

/-- Counterexample for C6: restricting the payoff-less game `g6` to the
single-strategy selection `0 ↦ [0]` raises `KeyError` instead of
succeeding with an empty sub-game. -/
theorem subgame_of_empty_game_cex :
    g6.subgame [(0, [0])] = Except.error () := by rfl

/-- Witness for the amended C6 theorem. -/
theorem subgame_of_empty_game_raises_witness :
    (g6.payoffs = [] ∧ ([(0, [1])] : List (ℕ × List ℕ)).isEmpty = false ∧
      (∀ r ∈ dedupSort g6.roles,
        dedupSort ((alookup r [(0, [1])]).getD []) ≠ [])) ∧
    g6.subgame [(0, [1])] = Except.error () :=
  ⟨⟨by rfl, by rfl, by decide⟩,
    subgame_of_empty_game_raises g6 [(0, [1])] (by rfl) (by rfl) (by decide)⟩

/-- C8: for a game whose role schema is canonical (roles non-empty — Python
`reduce` raises otherwise — strategy tuples sorted, deduplicated and
non-empty as `Game.__init__` produces, player counts at least one as the
schema requires), the stored size equals the product over roles of
`C(players_r + strats_r − 1, players_r)`, and `allProfiles()` enumerates
exactly `size`-many pairwise-distinct profiles. -/
theorem oldGame_profile_count {α : Type} [LinearOrder α] (g : OldGame α)
    (hroles : g.roles ≠ [])
    (hcounts : ∀ r ∈ g.roles, 1 ≤ countOf g r)
    (hsorted : ∀ r ∈ g.roles, (stratsOf g r).Sorted (fun x y => x ≤ y))
    (hnodup : ∀ r ∈ g.roles, (stratsOf g r).Nodup)
    (hne : ∀ r ∈ g.roles, stratsOf g r ≠ []) :
    g.size = (g.roles.map (fun r =>
        (countOf g r + (stratsOf g r).length - 1).choose (countOf g r))).prod ∧
    g.allProfiles.length = g.size ∧
    g.allProfiles.Nodup := by
  have hsize : g.size = (g.roles.map (fun r =>
      (countOf g r + (stratsOf g r).length - 1).choose (countOf g r))).prod := by
    unfold OldGame.size
    refine congrArg List.prod (List.map_congr_left ?_)
    intro r hr
    exact game_size_eq_choose (hcounts r hr)
      (List.length_pos.mpr (hne r hr))
  have hcomp : ∀ r ∈ g.roles,
      (cwr (stratsOf g r) (countOf g r)).map (fun s => symmetricProfileNew s) =
        cwr (stratsOf g r) (countOf g r) := by
    intro r hr
    have hid : ∀ y ∈ cwr (stratsOf g r) (countOf g r),
        symmetricProfileNew y = y := by
      intro y hy
      exact symmetricProfileNew_eq_self
        (sorted_mem_cwr _ _ (hsorted r hr) y hy)
    calc (cwr (stratsOf g r) (countOf g r)).map (fun s => symmetricProfileNew s)
        = (cwr (stratsOf g r) (countOf g r)).map id := List.map_congr_left hid
      _ = cwr (stratsOf g r) (countOf g r) := List.map_id _
  refine ⟨hsize, ?_, ?_⟩
  · unfold OldGame.allProfiles
    rw [List.length_map, length_cartProd, List.map_map, hsize]
    refine congrArg List.prod (List.map_congr_left ?_)
    intro r hr
    simp only [Function.comp]
    rw [hcomp r hr, length_cwr]
  · unfold OldGame.allProfiles
    have hcartnd : (cartProd (g.roles.map (fun r =>
        (cwr (stratsOf g r) (countOf g r)).map
          (fun s => symmetricProfileNew s)))).Nodup := by
      refine nodup_cartProd _ ?_
      intro l hl
      rcases List.mem_map.mp hl with ⟨r, hr, rfl⟩
      rw [hcomp r hr]
      exact nodup_cwr _ _ (hnodup r hr)
    refine hcartnd.map_on ?_
    intro p1 hp1 p2 hp2 heq
    have hl1 : p1.length = g.roles.length := by
      have := mem_cartProd_length _ p1 hp1
      simpa using this
    have hl2 : p2.length = g.roles.length := by
      have := mem_cartProd_length _ p2 hp2
      simpa using this
    exact zip_inj g.roles p1 p2 hl1 hl2 heq

/-- A concrete game for the C8 witness: one role `0` with two players and
strategies `0`, `1`; `size = C(3, 2) = 3`. -/
def g8 : OldGame ℕ :=
  { roles := [0]
    counts := [(0, 2)]
    strategies := [(0, [0, 1])]
    payoffs := [] }

/-- Witness for C8 at `g8`. -/
theorem oldGame_profile_count_witness :
    (g8.roles ≠ [] ∧ (∀ r ∈ g8.roles, 1 ≤ countOf g8 r) ∧
      (∀ r ∈ g8.roles, (stratsOf g8 r).Sorted (fun x y => x ≤ y)) ∧
      (∀ r ∈ g8.roles, (stratsOf g8 r).Nodup) ∧
      (∀ r ∈ g8.roles, stratsOf g8 r ≠ [])) ∧
    (g8.size = (g8.roles.map (fun r =>
        (countOf g8 r + (stratsOf g8 r).length - 1).choose (countOf g8 r))).prod ∧
      g8.allProfiles.length = g8.size ∧
      g8.allProfiles.Nodup) :=
  ⟨⟨by decide, by decide, by decide, by decide, by decide⟩,
    oldGame_profile_count g8 (by decide) (by decide) (by decide) (by decide) (by decide)⟩


/-! ### The dense payoff game feeding the dominance engine

`dominance.py` operates on an array-based game (`gameanalysis.paygame`,
absent from the sources): `game.profiles()` is the stored profile array,
`game.num_role_strats` the per-role strategy counts, and `_gains(game)`
stacks `regret.pure_strategy_deviation_gains(game, prof)` (also absent from
the sources) over the stored profiles.  Those two missing pieces are
modelled from the specification below; everything from `_weak_dominance`
down is translated from `dominance.py` itself.

Scalars: the payoffs are machine floats; the embedding is parametric in a
linearly ordered additive group `Q` of payoff values (only subtraction,
`max` and order comparisons occur on this path).  `ℚ` realizes the float
data of any actual game; concrete witnesses instantiate `Q := ℤ`, whose
arithmetic the kernel can evaluate.

Layout: a profile is a role-nested count list, a payoff row a role-nested
scalar list.  The flat deviation axis of the numpy code — role blocks of
`num_role_strats_r * (num_role_strats_r - 1)` entries, one slot per ordered
pair of distinct same-role strategies, computed with
`repeat`/`cumsum`/`insert` offset arithmetic — is represented as the nested
list `gains[profile][role][source i][slot d]`, the slot `d` standing for
the `d`-th element of `targets n i = [j < n, j ≠ i]` in increasing order,
exactly the numpy block order. -/

/-- A stored profile: per-role strategy counts. -/
abbrev Prof := List (List ℕ)

/-- A stored payoff row: per-role per-strategy payoffs. -/
abbrev Row (Q : Type) := List (List Q)

/-- A payoff row in which entries may be NaN (`none`). -/
abbrev NRow (Q : Type) := List (List (Option Q))

/-- The array-based payoff game: per-role strategy counts and the stored
(profile, payoff row) pairs, in canonical order. -/
structure PayGame (Q : Type) where
  numRoleStrats : List ℕ
  data : List (Prof × Row Q)

/-- Stored-row lookup by profile. -/
def lookupRow {Q : Type} (data : List (Prof × Row Q)) (p : Prof) :
    Option (Row Q) :=
  (data.find? (fun pr => decide (pr.1 = p))).map (fun pr => pr.2)

/-- Modelled from the spec: `get_payoffs(profile)` of the array-based
payoff game (`paygame.py`, absent from the sources) "returns the stored row
if present, a NaN-filled row on the profile's support and zeros elsewhere
if absent". -/
def getPayoffs {Q : Type} [LinearOrderedAddCommGroup Q] (g : PayGame Q)
    (p : Prof) : NRow Q :=
  match lookupRow g.data p with
  | some row => row.map (fun cr => cr.map (fun v => some v))
  | none => p.map (fun cr => cr.map (fun c => if c = 0 then some 0 else none))

/-- The profile reached by moving one player of role `r` from strategy `i`
to strategy `j` (`prof[s] -= 1; prof[s2] += 1`). -/
def devProf (p : Prof) (r i j : ℕ) : Prof :=
  let row := p.getD r []
  let row := row.set i (row.getD i 0 - 1)
  let row := row.set j (row.getD j 0 + 1)
  p.set r row

/-- Modelled from the spec: entry `G[p, s→s2]` of the gains tensor
(`regret.pure_strategy_deviation_gains`, absent from the sources): "the
payoff a player of role r would gain by deviating from strategy s (present
in p) to strategy s′ ≠ s of the same role: `pay[profile_after_dev, s′] −
pay[p, s]`" — NaN (`none`) when the deviation profile's row is missing,
and 0 at slots whose source strategy is not in the profile's support (the
`_gains` docstring: such entries are "zero because it's invalid"). -/
def gainEntry {Q : Type} [LinearOrderedAddCommGroup Q] (g : PayGame Q)
    (p : Prof) (row : Row Q) (r i j : ℕ) : Option Q :=
  if (p.getD r []).getD i 0 = 0 then some 0
  else
    match ((getPayoffs g (devProf p r i j)).getD r []).getD j none with
    | some v => some (v - ((row.getD r []).getD i 0))
    | none => none

/-- Deviation targets of source strategy `i` in a role with `n` strategies,
in slot order. -/
def targets (n i : ℕ) : List ℕ :=
  (List.range n).filter (fun j => j ≠ i)

/-- Per-profile gains tensor slice: role / source strategy / deviation
slot. -/
abbrev ProfGains (Q : Type) := List (List (List (Option Q)))

/-- Per-profile support mask (`game.profiles() > 0`): role / strategy. -/
abbrev ProfSupp := List (List Bool)

/-- The gains-tensor row of one stored profile. -/
def gainsRow {Q : Type} [LinearOrderedAddCommGroup Q] (g : PayGame Q)
    (p : Prof) (row : Row Q) : ProfGains Q :=
  (List.range g.numRoleStrats.length).map (fun r =>
    (List.range (g.numRoleStrats.getD r 0)).map (fun i =>
      (targets (g.numRoleStrats.getD r 0) i).map (fun j =>
        gainEntry g p row r i j)))

/-- Embedding of `_gains(game)`: the gains rows of all stored profiles. -/
def gainsOf {Q : Type} [LinearOrderedAddCommGroup Q] (g : PayGame Q) :
    List (ProfGains Q) :=
  g.data.map (fun pr => gainsRow g pr.1 pr.2)

/-- Embedding of `game.profiles() > 0`: the support masks of all stored
profiles. -/
def supportsOf {Q : Type} (g : PayGame Q) : List ProfSupp :=
  g.data.map (fun pr => pr.1.map (fun cr => cr.map (fun c => decide (0 < c))))

/-- `gains >= 0` on a possibly-NaN entry (numpy comparisons with NaN are
false). -/
def gainGE0 {Q : Type} [LinearOrderedAddCommGroup Q] : Option Q → Bool
  | some x => decide (0 ≤ x)
  | none => false

/-- `gains > 0` on a possibly-NaN entry. -/
def gainGT0 {Q : Type} [LinearOrderedAddCommGroup Q] : Option Q → Bool
  | some x => decide (0 < x)
  | none => false

/-- `np.isnan`. -/
def isNaN {Q : Type} : Option Q → Bool
  | none => true
  | some _ => false

/-- Support-mask entry of strategy `i` of role `r` (false outside the
array, a case the shapes of actual games never produce). -/
def suppAt (sp : ProfSupp) (r i : ℕ) : Bool :=
  (sp.getD r []).getD i false

/-- Gains-tensor entry at role `r`, source `i`, deviation slot `d`. -/
def gainAt {Q : Type} (gp : ProfGains Q) (r i d : ℕ) : Option Q :=
  ((gp.getD r []).getD i []).getD d none

/-- Embedding of `_weak_dominance` (dominance.py lines 41-51) in the
role-nested layout: per source strategy there are `num_role_strats_r − 1`
deviation slots (`sizes = np.repeat(num_strats - 1, num_strats)`);
`dominated = (gains >= 0) & repeat(supports)`; `not_dominates = dominated |
repeat(~supports)`, with `|= np.isnan(gains)` when `conditional` is false;
the per-strategy result is the or-reduction over its slots of
`dominated.any(0) & not_dominates.all(0)` (empty slot blocks reduce to
false, `_reduceat`'s identity). -/
def weakDominance {Q : Type} [LinearOrderedAddCommGroup Q]
    (gains : List (ProfGains Q)) (supports : List ProfSupp)
    (numStrats : List ℕ) (conditional : Bool) : List (List Bool) :=
  (List.range numStrats.length).map (fun r =>
    (List.range (numStrats.getD r 0)).map (fun i =>
      (List.range (numStrats.getD r 0 - 1)).any (fun d =>
        ((gains.zip supports).any (fun gs =>
          gainGE0 (gainAt gs.1 r i d) && suppAt gs.2 r i)) &&
        ((gains.zip supports).all (fun gs =>
          (gainGE0 (gainAt gs.1 r i d) && suppAt gs.2 r i) ||
          !suppAt gs.2 r i ||
          (!conditional && isNaN (gainAt gs.1 r i d)))))))

/-- Embedding of `_strict_dominance` (dominance.py lines 54-64): as
`_weak_dominance` but `dominated = gains > 0` with no support factor. -/
def strictDominance {Q : Type} [LinearOrderedAddCommGroup Q]
    (gains : List (ProfGains Q)) (supports : List ProfSupp)
    (numStrats : List ℕ) (conditional : Bool) : List (List Bool) :=
  (List.range numStrats.length).map (fun r =>
    (List.range (numStrats.getD r 0)).map (fun i =>
      (List.range (numStrats.getD r 0 - 1)).any (fun d =>
        ((gains.zip supports).any (fun gs =>
          gainGT0 (gainAt gs.1 r i d))) &&
        ((gains.zip supports).all (fun gs =>
          gainGT0 (gainAt gs.1 r i d) ||
          !suppAt gs.2 r i ||
          (!conditional && isNaN (gainAt gs.1 r i d)))))))

/-- `np.fmax` on two possibly-NaN values: NaN only when both are NaN. -/
def fmax2 {Q : Type} [LinearOrderedAddCommGroup Q] :
    Option Q → Option Q → Option Q
  | none, b => b
  | some x, none => some x
  | some x, some y => some (max x y)

/-- `np.fmax.reduceat` over one block, with identity NaN on the empty
block. -/
def fmaxList {Q : Type} [LinearOrderedAddCommGroup Q] (l : List (Option Q)) :
    Option Q :=
  l.foldr fmax2 none

/-- numpy `==` on possibly-NaN values: false whenever either is NaN. -/
def oeq {Q : Type} [DecidableEq Q] : Option Q → Option Q → Bool
  | some x, some y => decide (x = y)
  | some _, none => false
  | none, _ => false

/-- The self-gain block of source strategy `i`: its deviation-slot row with
a gain of 0 inserted at the self position (`np.insert(gains, self_inds, 0,
-1)` puts the 0 of block `i` at local position `i`). -/
def selfRow {Q : Type} [LinearOrderedAddCommGroup Q] (gp : ProfGains Q)
    (r i : ℕ) : List (Option Q) :=
  List.insertIdx i (some 0) ((gp.getD r []).getD i [])

/-- Embedding of `_never_best_response` (dominance.py lines 67-89): per
source strategy `i` the self-gain block (0 inserted at the self slot) is
fmax-reduced to `best_gains`; `best_resps = (best_gains == self_gains) &
repeat(supports)`, with `|= np.isnan(best_gains)` when `conditional`; a
strategy `t` is never a best response when no slot `(i, t)` targeting it
(`np.bincount` over `_dev_inds`, which map slot `(i, t)` to `t`) is a best
response in any profile. -/
def neverBestResponse {Q : Type} [LinearOrderedAddCommGroup Q]
    (gains : List (ProfGains Q)) (supports : List ProfSupp)
    (numStrats : List ℕ) (conditional : Bool) : List (List Bool) :=
  (List.range numStrats.length).map (fun r =>
    (List.range (numStrats.getD r 0)).map (fun t =>
      !((List.range (numStrats.getD r 0)).any (fun i =>
        (gains.zip supports).any (fun gs =>
          (oeq (fmaxList (selfRow gs.1 r i)) ((selfRow gs.1 r i).getD t none) &&
            suppAt gs.2 r i) ||
          (conditional && isNaN (fmaxList (selfRow gs.1 r i))))))))

/-- Embedding of `weakly_dominated(game, conditional)` (lines 92-97). -/
def weaklyDominated {Q : Type} [LinearOrderedAddCommGroup Q] (g : PayGame Q)
    (conditional : Bool) : List (List Bool) :=
  weakDominance (gainsOf g) (supportsOf g) g.numRoleStrats conditional

/-- Embedding of `strictly_dominated(game, conditional)` (lines 100-105). -/
def strictlyDominated {Q : Type} [LinearOrderedAddCommGroup Q] (g : PayGame Q)
    (conditional : Bool) : List (List Bool) :=
  strictDominance (gainsOf g) (supportsOf g) g.numRoleStrats conditional

/-- Embedding of `never_best_response(game, conditional)` (lines 108-114). -/
def neverBestResp {Q : Type} [LinearOrderedAddCommGroup Q] (g : PayGame Q)
    (conditional : Bool) : List (List Bool) :=
  neverBestResponse (gainsOf g) (supportsOf g) g.numRoleStrats conditional


/-! ### Concrete games for the dominance claims -/

/-- A one-role two-strategy two-player game with a missing profile: rows
for `[2,0] ↦ [1,0]` and `[1,1] ↦ [1,5]` are stored, `[0,2]` is absent.  The
gain of deviating `0 → 1` is `4 > 0` in `[2,0]` and NaN in `[1,1]` (the
opposing row `[0,2]` is missing), and `[1,1]` supports strategy 0, so
strategy 0 is strictly (and weakly) dominated by strategy 1 on the observed
data if and only if the NaN gain is forgiven. -/
def gm : PayGame ℤ :=
  { numRoleStrats := [2]
    data := [([[2, 0]], [[1, 0]]), ([[1, 1]], [[1, 5]])] }

/-- A complete one-role two-strategy one-player game in which the two
strategies earn identical payoffs, so every deviation gain is exactly 0. -/
def gz : PayGame ℤ :=
  { numRoleStrats := [2]
    data := [([[1, 0]], [[5, 0]]), ([[0, 1]], [[0, 5]])] }

/-- C1 (code bug): on `gm`, strategy 0's candidacy for being dominated by
strategy 1 is decided entirely by the NaN gain in the supporting profile
`[1,1]`.  The spec (and the functions' own docstrings: "If conditional,
then missing data will be treated as dominating") requires the NaN to be
forgiven when `conditional = true` and to break the candidacy when
`conditional = false`; the code does exactly the opposite, because
`_weak_dominance` and `_strict_dominance` apply the `np.isnan` forgiveness
under `if not conditional:`.  Evaluating the embedded code shows the
inversion, identically for the strict and weak criteria. -/
theorem conditional_nan_inverted_cex :
    strictlyDominated gm true = [[false, false]] ∧
    strictlyDominated gm false = [[true, false]] ∧
    weaklyDominated gm true = [[false, false]] ∧
    weaklyDominated gm false = [[true, false]] := by decide

/-! ### C2: characterization of `weakly_dominated` without missing data -/

/-- Support test `p[s] > 0` read directly off a profile. -/
def supportAtProf (p : Prof) (r i : ℕ) : Bool :=
  decide (0 < (p.getD r []).getD i 0)

/-- No gains-tensor entry of the game is NaN ("no missing data"). -/
def noMissing {Q : Type} [LinearOrderedAddCommGroup Q] (g : PayGame Q) : Bool :=
  (gainsOf g).all (fun gp => gp.all (fun rr => rr.all (fun sr =>
    sr.all (fun x => !isNaN x))))

/-- The claim's characterization of weak dominance, following the spec's
words: strategy `i` of role `r` is weakly dominated when some same-role
strategy `j ≠ i` has gain `≥ 0` in every stored profile supporting `i` and
gain `> 0` in at least one stored profile supporting `i`. -/
def weakDomSpecStrict {Q : Type} [LinearOrderedAddCommGroup Q] (g : PayGame Q)
    (r i : ℕ) : Bool :=
  (targets (g.numRoleStrats.getD r 0) i).any (fun j =>
    (g.data.any (fun pr =>
      gainGT0 (gainEntry g pr.1 pr.2 r i j) && supportAtProf pr.1 r i)) &&
    (g.data.all (fun pr =>
      !supportAtProf pr.1 r i || gainGE0 (gainEntry g pr.1 pr.2 r i j))))

/-- The amended characterization that the code actually computes: the
existential profile only needs gain `≥ 0` (so a deviation that never
strictly improves still witnesses weak dominance, as long as some stored
profile supports `i`). -/
def weakDomSpecAmended {Q : Type} [LinearOrderedAddCommGroup Q] (g : PayGame Q)
    (r i : ℕ) : Bool :=
  (targets (g.numRoleStrats.getD r 0) i).any (fun j =>
    (g.data.any (fun pr =>
      gainGE0 (gainEntry g pr.1 pr.2 r i j) && supportAtProf pr.1 r i)) &&
    (g.data.all (fun pr =>
      !supportAtProf pr.1 r i || gainGE0 (gainEntry g pr.1 pr.2 r i j))))

/-- Counterexample for C2: the complete game `gz` has no missing data, its
strategy 0 has only zero gains (never `> 0`), so the claim's
characterization does not hold of it — yet `weakly_dominated` reports it
(and symmetrically strategy 1) as weakly dominated. -/
theorem weaklyDominated_iff_spec_cex :
    noMissing gz = true ∧
    weaklyDominated gz true = [[true, true]] ∧
    weakDomSpecStrict gz 0 0 = false := by decide


/-! ### Generic list bridging lemmas for the dominance proofs -/

lemma any_congr {α : Type} {l : List α} {p q : α → Bool}
    (h : ∀ x ∈ l, p x = q x) : l.any p = l.any q := by
  induction l with
  | nil => rfl
  | cons a t ih =>
    simp only [List.any_cons]
    rw [h a (List.mem_cons_self _ _),
      ih (fun x hx => h x (List.mem_cons_of_mem _ hx))]

lemma all_congr {α : Type} {l : List α} {p q : α → Bool}
    (h : ∀ x ∈ l, p x = q x) : l.all p = l.all q := by
  induction l with
  | nil => rfl
  | cons a t ih =>
    simp only [List.all_cons]
    rw [h a (List.mem_cons_self _ _),
      ih (fun x hx => h x (List.mem_cons_of_mem _ hx))]

lemma any_map2 {α β : Type} (f : α → β) (l : List α) (p : β → Bool) :
    (l.map f).any p = l.any (fun x => p (f x)) := by
  induction l with
  | nil => rfl
  | cons a t ih => simp only [List.map_cons, List.any_cons, ih]

lemma all_map2 {α β : Type} (f : α → β) (l : List α) (p : β → Bool) :
    (l.map f).all p = l.all (fun x => p (f x)) := by
  induction l with
  | nil => rfl
  | cons a t ih => simp only [List.map_cons, List.all_cons, ih]

lemma any_swap {α β : Type} (l : List α) (m : List β) (p : α → β → Bool) :
    l.any (fun a => m.any (fun b => p a b)) = m.any (fun b => l.any (fun a => p a b)) := by
  rw [Bool.eq_iff_iff]
  simp only [List.any_eq_true]
  constructor
  · rintro ⟨a, ha, b, hb, hp⟩
    exact ⟨b, hb, a, ha, hp⟩
  · rintro ⟨b, hb, a, ha, hp⟩
    exact ⟨a, ha, b, hb, hp⟩

lemma getD_eq_get {β : Type} (l : List β) (dflt : β) {d : ℕ}
    (h : d < l.length) : l.getD d dflt = l.get ⟨d, h⟩ := by
  simp [List.getD_eq_getElem?_getD, List.getElem?_eq_getElem h]

lemma getD_map_range {β : Type} {n r : ℕ} (f : ℕ → β) (dflt : β) (h : r < n) :
    ((List.range n).map f).getD r dflt = f r := by
  rw [List.getD_eq_getElem?_getD, List.getElem?_map, List.getElem?_range h]
  rfl

lemma getD_map_lt {β γ : Type} (l : List β) (f : β → γ) {d : ℕ}
    (h : d < l.length) (dflt : γ) (db : β) :
    (l.map f).getD d dflt = f (l.getD d db) := by
  have h2 : d < (l.map f).length := by simpa using h
  rw [getD_eq_get _ _ h2, getD_eq_get _ _ h]
  simp

lemma any_range_getD {β : Type} (l : List β) (dflt : β) (p : β → Bool) :
    (List.range l.length).any (fun d => p (l.getD d dflt)) = l.any p := by
  rw [Bool.eq_iff_iff]
  simp only [List.any_eq_true]
  constructor
  · rintro ⟨d, hd, hp⟩
    have hlt : d < l.length := List.mem_range.mp hd
    rw [getD_eq_get _ _ hlt] at hp
    exact ⟨l.get ⟨d, hlt⟩, List.get_mem l d hlt, hp⟩
  · rintro ⟨x, hx, hp⟩
    rcases List.mem_iff_get.mp hx with ⟨⟨d, hlt⟩, rfl⟩
    refine ⟨d, List.mem_range.mpr hlt, ?_⟩
    rw [getD_eq_get _ _ hlt]
    exact hp

lemma targets_eq {n i : ℕ} (h : i < n) :
    targets n i = List.range i ++ List.range' (i + 1) (n - i - 1) := by
  unfold targets
  have hsplit : List.range n = List.range i ++ List.range' i (n - i) := by
    rw [List.range_eq_range', List.range_eq_range']
    have happ := List.range'_append 0 i (n - i) 1
    simp only [Nat.one_mul, Nat.zero_add] at happ
    rw [happ]
    congr 1
    omega
  rw [hsplit, List.filter_append]
  congr 1
  · apply List.filter_eq_self.mpr
    intro a ha
    have : a < i := List.mem_range.mp ha
    simp only [decide_eq_true_eq]
    omega
  · have h2 : n - i = (n - i - 1) + 1 := by omega
    rw [h2, List.range'_succ]
    rw [List.filter_cons]
    have hii : (decide (i ≠ i)) = false := by simp
    rw [hii]
    simp only [Bool.false_eq_true, if_false]
    apply List.filter_eq_self.mpr
    intro a ha
    have := List.mem_range'_1.mp ha
    simp only [decide_eq_true_eq]
    omega

lemma targets_length {n i : ℕ} (h : i < n) : (targets n i).length = n - 1 := by
  rw [targets_eq h]
  simp only [List.length_append, List.length_range, List.length_range']
  omega

lemma mem_targets {n i j : ℕ} : j ∈ targets n i ↔ j < n ∧ j ≠ i := by
  unfold targets
  rw [List.mem_filter, List.mem_range]
  simp

lemma inner_supp (cr : List ℕ) (i : ℕ) :
    (cr.map (fun c => decide (0 < c))).getD i false = decide (0 < cr.getD i 0) := by
  induction cr generalizing i with
  | nil => cases i <;> rfl
  | cons c cs ih =>
    cases i with
    | zero => rfl
    | succ i => simpa using ih i

lemma suppAt_supportsOf (p : Prof) (r i : ℕ) :
    suppAt (p.map (fun cr => cr.map (fun c => decide (0 < c)))) r i =
      supportAtProf p r i := by
  unfold suppAt supportAtProf
  induction p generalizing r with
  | nil => cases r <;> rfl
  | cons cr tl ih =>
    cases r with
    | zero => simpa using inner_supp cr i
    | succ r => simpa using ih r

lemma noMissing_entry {Q : Type} [LinearOrderedAddCommGroup Q] {g : PayGame Q}
    (hnm : noMissing g = true) {pr : Prof × Row Q} (hpr : pr ∈ g.data)
    {r i j : ℕ} (hr : r < g.numRoleStrats.length)
    (hi : i < g.numRoleStrats.getD r 0)
    (hj : j ∈ targets (g.numRoleStrats.getD r 0) i) :
    isNaN (gainEntry g pr.1 pr.2 r i j) = false := by
  unfold noMissing at hnm
  rw [List.all_eq_true] at hnm
  have h1 := hnm (gainsRow g pr.1 pr.2)
    (List.mem_map.mpr ⟨pr, hpr, rfl⟩)
  rw [List.all_eq_true] at h1
  have h2 := h1 ((List.range (g.numRoleStrats.getD r 0)).map (fun i =>
      (targets (g.numRoleStrats.getD r 0) i).map (fun j =>
        gainEntry g pr.1 pr.2 r i j)))
    (List.mem_map.mpr ⟨r, List.mem_range.mpr hr, rfl⟩)
  rw [List.all_eq_true] at h2
  have h3 := h2 ((targets (g.numRoleStrats.getD r 0) i).map (fun j =>
      gainEntry g pr.1 pr.2 r i j))
    (List.mem_map.mpr ⟨i, List.mem_range.mpr hi, rfl⟩)
  rw [List.all_eq_true] at h3
  have h4 := h3 (gainEntry g pr.1 pr.2 r i j)
    (List.mem_map.mpr ⟨j, hj, rfl⟩)
  simpa using h4


lemma gainAt_gainsRow {Q : Type} [LinearOrderedAddCommGroup Q] (g : PayGame Q)
    (p : Prof) (row : Row Q) {r i d : ℕ}
    (hr : r < g.numRoleStrats.length)
    (hi : i < g.numRoleStrats.getD r 0)
    (hd : d < (targets (g.numRoleStrats.getD r 0) i).length) :
    gainAt (gainsRow g p row) r i d =
      gainEntry g p row r i ((targets (g.numRoleStrats.getD r 0) i).getD d 0) := by
  unfold gainAt gainsRow
  rw [getD_map_range _ _ hr, getD_map_range _ _ hi, getD_map_lt _ _ hd]

/-- C2 (amended): without missing data, `weakly_dominated` reports strategy
`i` of role `r` as weakly dominated exactly when some same-role strategy
`j ≠ i` has deviation gain ≥ 0 in every stored profile supporting `i` and
gain ≥ 0 (not necessarily > 0) in at least one stored profile supporting
`i`.  The code never requires a strictly positive gain, which is the single
point on which the original claim fails. -/
theorem weaklyDominated_iff {Q : Type} [LinearOrderedAddCommGroup Q]
    (g : PayGame Q) (cond : Bool) (r i : ℕ)
    (hnm : noMissing g = true)
    (hr : r < g.numRoleStrats.length)
    (hi : i < g.numRoleStrats.getD r 0) :
    ((weaklyDominated g cond).getD r []).getD i false =
      weakDomSpecAmended g r i := by
  unfold weaklyDominated weakDominance weakDomSpecAmended
  rw [getD_map_range _ _ hr, getD_map_range _ _ hi]
  rw [Bool.eq_iff_iff]
  simp only [gainsOf, supportsOf, List.zip_map', any_map2, all_map2,
    suppAt_supportsOf, List.any_eq_true, List.all_eq_true, Bool.and_eq_true,
    Bool.or_eq_true, List.mem_range]
  constructor
  · rintro ⟨d, hd, hA, hB⟩
    have hdt : d < (targets (g.numRoleStrats.getD r 0) i).length := by
      rw [targets_length hi]
      exact hd
    refine ⟨(targets (g.numRoleStrats.getD r 0) i).getD d 0, ?_, ?_, ?_⟩
    · rw [getD_eq_get _ _ hdt]
      exact List.get_mem _ _ _
    · rcases hA with ⟨pr, hpr, hge, hsupp⟩
      refine ⟨pr, hpr, ?_, hsupp⟩
      rw [← gainAt_gainsRow g pr.1 pr.2 hr hi hdt]
      exact hge
    · intro pr hpr
      rcases hB pr hpr with (⟨hge, hsupp⟩ | hnsupp) | ⟨hcond, hnan⟩
      · right
        rw [← gainAt_gainsRow g pr.1 pr.2 hr hi hdt]
        exact hge
      · left; exact hnsupp
      · exfalso
        have hjm : (targets (g.numRoleStrats.getD r 0) i).getD d 0 ∈
            targets (g.numRoleStrats.getD r 0) i := by
          rw [getD_eq_get _ _ hdt]
          exact List.get_mem _ _ _
        have hno := noMissing_entry hnm hpr hr hi hjm
        rw [← gainAt_gainsRow g pr.1 pr.2 hr hi hdt] at hno
        rw [hno] at hnan
        cases hnan
  · rintro ⟨j, hj, ⟨pr0, hpr0, hge0, hsupp0⟩, hall⟩
    rcases List.mem_iff_get.mp hj with ⟨⟨d, hdt⟩, hget⟩
    have hd : d < g.numRoleStrats.getD r 0 - 1 := by
      rw [← targets_length hi]
      exact hdt
    have hgd : (targets (g.numRoleStrats.getD r 0) i).getD d 0 = j := by
      rw [getD_eq_get _ _ hdt]
      exact hget
    refine ⟨d, hd, ⟨pr0, hpr0, ?_, hsupp0⟩, ?_⟩
    · rw [gainAt_gainsRow g pr0.1 pr0.2 hr hi hdt, hgd]
      exact hge0
    · intro pr hpr
      rcases hall pr hpr with hnsupp | hge
      · left; right; exact hnsupp
      · by_cases hsupp : supportAtProf pr.1 r i = true
        · left; left
          refine ⟨?_, hsupp⟩
          rw [gainAt_gainsRow g pr.1 pr.2 hr hi hdt, hgd]
          exact hge
        · left; right
          have hfalse : supportAtProf pr.1 r i = false := by
            cases h2 : supportAtProf pr.1 r i
            · rfl
            · exact absurd h2 hsupp
          rw [hfalse]
          rfl


/-- Witness for the amended C2 theorem at `gz`, role 0, strategy 0. -/
theorem weaklyDominated_iff_witness :
    (noMissing gz = true ∧ 0 < gz.numRoleStrats.length ∧
      0 < gz.numRoleStrats.getD 0 0) ∧
    ((weaklyDominated gz true).getD 0 []).getD 0 false =
      weakDomSpecAmended gz 0 0 :=
  ⟨⟨by decide, by decide, by decide⟩,
    weaklyDominated_iff gz true 0 0 (by decide) (by decide) (by decide)⟩

/-! ### `iterated_elimination` (dominance.py lines 124-165)

State of the loop: the per-role strategy counts, gains and supports of the
current restricted game, the global survivor vector `rest` over the
original strategies, and the latest survivor mask `mask = ~cfunc(...)` over
the current strategies.  One loop iteration writes `rest[rest] = mask`,
drops the profiles whose support leaves the mask
(`prof_mask = ~np.any(supports & ~mask, -1)`), restricts the support
columns to the mask and the deviation columns to the pairs whose source and
target both survive (`dev_in_supp & strat_in_supp`), recomputes
`num_strats`, and re-evaluates the criterion.  The loop runs while some
strategy was eliminated and some role retains more than one strategy; the
final mask is applied to `rest` unconditionally after the loop. -/

/-- Survivor masks and eliminated masks, role-nested. -/
abbrev Mask := List (List Bool)

/-- Number of `true` entries of a boolean vector (`np.add.reduceat` on a
role block). -/
def trueCount (l : List Bool) : ℕ :=
  l.countP (fun b => b)

/-- The numpy fancy assignment `rest[rest] = mask` on one role block: the
`true` positions of `rest` receive the bits of `mask` in order. -/
def scatter : List Bool → List Bool → List Bool
  | [], _ => []
  | true :: rest, m => m.headD false :: scatter rest m.tail
  | false :: rest, m => false :: scatter rest m

/-- `rest[rest] = mask` over all roles. -/
def scatter2 (rest mask : Mask) : Mask :=
  List.zipWith scatter rest mask

/-- Keep the entries of `l` at the `true` positions of `m` (boolean fancy
indexing `a[:, mask]`). -/
def maskFilter {β : Type} (m : List Bool) (l : List β) : List β :=
  ((m.zip l).filter (fun bm => bm.1)).map (fun bm => bm.2)

/-- `~np.any(supports & ~mask, -1)`: the profile survives when every
supported strategy is in the mask. -/
def profKeep (mask : Mask) (sp : ProfSupp) : Bool :=
  (sp.zip mask).all (fun sm => (sm.1.zip sm.2).all (fun bm => !bm.1 || bm.2))

/-- Restrict a profile's support row to the mask (`supports[...][:, mask]`). -/
def restrictSupp (mask : Mask) (sp : ProfSupp) : ProfSupp :=
  (sp.zip mask).map (fun sm => maskFilter sm.2 sm.1)

/-- Restrict one role block of a profile's gains row: keep the source
strategies in the mask (`strat_in_supp`) and, within each kept source `i`'s
slot row, the targets in the mask (`dev_in_supp`; the slots of source `i`
stand for the targets `≠ i` in order, so their mask bits are the role mask
with position `i` removed). -/
def restrictRoleGains {Q : Type} (m : List Bool)
    (gr : List (List (Option Q))) : List (List (Option Q)) :=
  (((List.range gr.length).zip gr).filter (fun ig => m.getD ig.1 false)).map
    (fun ig => maskFilter (m.eraseIdx ig.1) ig.2)

/-- Restrict a profile's gains row to the mask. -/
def restrictGains {Q : Type} (mask : Mask) (gp : ProfGains Q) : ProfGains Q :=
  (gp.zip mask).map (fun gm => restrictRoleGains gm.2 gm.1)

/-- The type of the three criterion functions `_CRITERIA[criterion]`. -/
abbrev CFunc (Q : Type) :=
  List (ProfGains Q) → List ProfSupp → List ℕ → Bool → Mask

/-- `~mask`. -/
def negMask (m : Mask) : Mask :=
  m.map (fun l => l.map (fun b => !b))

/-- The loop state of `iterated_elimination`. -/
structure DomSt (Q : Type) where
  numStrats : List ℕ
  gains : List (ProfGains Q)
  supports : List ProfSupp
  rest : Mask
  mask : Mask

/-- The `while` condition: `~np.all(mask) and np.any(role_counts(mask) > 1)`. -/
def loopGuard {Q : Type} (st : DomSt Q) : Bool :=
  (st.mask.any (fun mr => mr.any (fun b => !b))) &&
  (st.mask.any (fun mr => 1 < trueCount mr))

/-- One body of the `while` loop. -/
def stepSt {Q : Type} [LinearOrderedAddCommGroup Q] (cfunc : CFunc Q)
    (conditional : Bool) (st : DomSt Q) : DomSt Q :=
  let rest2 := scatter2 st.rest st.mask
  let kept := (st.gains.zip st.supports).filter (fun gs => profKeep st.mask gs.2)
  let gains2 := kept.map (fun gs => restrictGains st.mask gs.1)
  let supports2 := kept.map (fun gs => restrictSupp st.mask gs.2)
  let ns2 := st.mask.map trueCount
  { numStrats := ns2
    gains := gains2
    supports := supports2
    rest := rest2
    mask := negMask (cfunc gains2 supports2 ns2 conditional) }

/-- The loop, with an explicit fuel bound; the final `rest[rest] = mask` is
applied when the guard fails (or the fuel runs out — the fuel-adequacy
theorem below shows `num_strats.sum` fuel always reaches the guard-failure
exit, so the embedding with that fuel computes exactly what the unbounded
`while` loop does). -/
def iterLoop {Q : Type} [LinearOrderedAddCommGroup Q] (cfunc : CFunc Q)
    (conditional : Bool) : ℕ → DomSt Q → Mask
  | 0, st => scatter2 st.rest st.mask
  | f + 1, st =>
    if loopGuard st then
      iterLoop cfunc conditional f (stepSt cfunc conditional st)
    else scatter2 st.rest st.mask

/-- The elimination criteria (`_CRITERIA` keys). -/
inductive Criterion
  | weakdom
  | strictdom
  | neverbr

/-- `_CRITERIA[criterion]`. -/
def critFun {Q : Type} [LinearOrderedAddCommGroup Q] : Criterion → CFunc Q
  | .weakdom => weakDominance
  | .strictdom => strictDominance
  | .neverbr => neverBestResponse

/-- The state entering the loop: full survivor vector, first mask. -/
def initSt {Q : Type} [LinearOrderedAddCommGroup Q] (g : PayGame Q)
    (crit : Criterion) (conditional : Bool) : DomSt Q :=
  { numStrats := g.numRoleStrats
    gains := gainsOf g
    supports := supportsOf g
    rest := g.numRoleStrats.map (fun k => List.replicate k true)
    mask := negMask (critFun crit (gainsOf g) (supportsOf g)
      g.numRoleStrats conditional) }

/-- Embedding of `iterated_elimination(game, criterion, conditional)`,
with fuel `num_strats.sum` (adequate by the C4 theorem). -/
def iteratedElimination {Q : Type} [LinearOrderedAddCommGroup Q]
    (g : PayGame Q) (crit : Criterion) (conditional : Bool) : Mask :=
  iterLoop (critFun crit) conditional g.numRoleStrats.sum
    (initSt g crit conditional)

/-- Counterexample for C3: on the complete game `gz` — both of whose
strategies earn identical payoffs, so each weakly dominates the other —
`iterated_elimination` with the `weakdom` criterion returns the all-false
mask: its single role (which has two strategies) keeps zero strategies,
because the final `rest[rest] = mask` is applied unconditionally and the
guard `np.any(role_counts > 1)` does not prevent a role from being
emptied. -/
theorem iteratedElimination_empty_role_cex :
    iteratedElimination gz Criterion.weakdom true = [[false, false]] ∧
    ((iteratedElimination gz Criterion.weakdom true).getD 0 []).any
      (fun b => b) = false := by decide


/-! ### C4: termination of `iterated_elimination` -/

/-- Total number of strategies of the current restriction. -/
def totalLen (m : Mask) : ℕ :=
  (m.map List.length).sum

/-- Total number of surviving strategies. -/
def totalTrue (m : Mask) : ℕ :=
  (m.map trueCount).sum

lemma range_map_getD (l : List ℕ) :
    (List.range l.length).map (fun r => l.getD r 0) = l := by
  induction l with
  | nil => rfl
  | cons a t ih =>
    rw [List.length_cons, List.range_succ_eq_map, List.map_cons, List.map_map]
    have hcomp : ((fun r => (a :: t).getD r 0) ∘ Nat.succ) =
        fun r => t.getD r 0 := by
      funext r
      rfl
    rw [hcomp, ih]
    rfl

lemma map_length_outer {β : Type} (ns : List ℕ) (F : ℕ → ℕ → β) :
    ((List.range ns.length).map (fun r =>
      (List.range (ns.getD r 0)).map (F r))).map List.length = ns := by
  rw [List.map_map]
  have hcomp : (List.length ∘ fun r => (List.range (ns.getD r 0)).map (F r)) =
      fun r => ns.getD r 0 := by
    funext r
    simp [Function.comp]
  rw [hcomp, range_map_getD]

lemma critFun_len {Q : Type} [LinearOrderedAddCommGroup Q] (crit : Criterion)
    (gs : List (ProfGains Q)) (ss : List ProfSupp) (ns : List ℕ) (c : Bool) :
    (critFun crit gs ss ns c).map List.length = ns := by
  cases crit <;>
    simp only [critFun, weakDominance, strictDominance, neverBestResponse] <;>
    exact map_length_outer ns _

lemma trueCount_le (l : List Bool) : trueCount l ≤ l.length :=
  List.countP_le_length _

lemma trueCount_lt {l : List Bool} (h : l.any (fun b => !b) = true) :
    trueCount l < l.length := by
  induction l with
  | nil => cases h
  | cons b t ih =>
    unfold trueCount at *
    rw [List.countP_cons, List.length_cons]
    cases b
    · have := List.countP_le_length (fun b => b) (l := t)
      simp only [decide_eq_true_eq, Bool.false_eq_true, if_false]
      omega
    · rw [List.any_cons] at h
      simp only [Bool.not_true, Bool.false_or] at h
      have := ih h
      simp only [decide_eq_true_eq, if_true]
      omega

lemma totalTrue_le (m : Mask) : totalTrue m ≤ totalLen m := by
  induction m with
  | nil => exact le_refl 0
  | cons mr t ih =>
    unfold totalTrue totalLen at *
    simp only [List.map_cons, List.sum_cons]
    have := trueCount_le mr
    omega

lemma totalTrue_lt {m : Mask}
    (h : m.any (fun mr => mr.any (fun b => !b)) = true) :
    totalTrue m < totalLen m := by
  induction m with
  | nil => cases h
  | cons mr t ih =>
    rw [List.any_cons] at h
    simp only [totalTrue, totalLen, List.map_cons, List.sum_cons] at ih ⊢
    rcases Bool.or_eq_true _ _ ▸ h with h1 | h1
    · have h2 := trueCount_lt h1
      have h3 := totalTrue_le t
      simp only [totalTrue, totalLen] at h3
      omega
    · have h2 := ih h1
      have h3 := trueCount_le mr
      omega

lemma totalLen_negMask (m : Mask) : totalLen (negMask m) = totalLen m := by
  unfold totalLen negMask
  rw [List.map_map]
  congr 1
  apply List.map_congr_left
  intro l _
  simp [Function.comp]

lemma stepSt_mask {Q : Type} [LinearOrderedAddCommGroup Q] (cfunc : CFunc Q)
    (cond : Bool) (st : DomSt Q) :
    (stepSt cfunc cond st).mask =
      negMask (cfunc
        (((st.gains.zip st.supports).filter
            (fun gs => profKeep st.mask gs.2)).map
          (fun gs => restrictGains st.mask gs.1))
        (((st.gains.zip st.supports).filter
            (fun gs => profKeep st.mask gs.2)).map
          (fun gs => restrictSupp st.mask gs.2))
        (st.mask.map trueCount) cond) := rfl

lemma stepSt_measure {Q : Type} [LinearOrderedAddCommGroup Q] (cfunc : CFunc Q)
    (hlen : ∀ gs ss ns c, (cfunc gs ss ns c).map List.length = ns)
    (cond : Bool) (st : DomSt Q) (hg : loopGuard st = true) :
    totalLen (stepSt cfunc cond st).mask < totalLen st.mask := by
  rw [stepSt_mask, totalLen_negMask]
  have h1 : totalLen (cfunc
      (((st.gains.zip st.supports).filter
          (fun gs => profKeep st.mask gs.2)).map
        (fun gs => restrictGains st.mask gs.1))
      (((st.gains.zip st.supports).filter
          (fun gs => profKeep st.mask gs.2)).map
        (fun gs => restrictSupp st.mask gs.2))
      (st.mask.map trueCount) cond) = totalTrue st.mask := by
    unfold totalLen
    rw [hlen]
    rfl
  rw [h1]
  have hany : st.mask.any (fun mr => mr.any (fun b => !b)) = true :=
    (Bool.and_eq_true _ _ ▸ hg).1
  exact totalTrue_lt hany

lemma any_any_false_of_totalLen_zero (m : Mask) (p : Bool → Bool)
    (h : totalLen m = 0) : m.any (fun mr => mr.any p) = false := by
  induction m with
  | nil => rfl
  | cons mr t ih =>
    simp only [totalLen, List.map_cons, List.sum_cons] at h
    have hmr : mr.length = 0 := by omega
    have ht : totalLen t = 0 := by
      simp only [totalLen]
      omega
    rw [List.length_eq_zero] at hmr
    subst hmr
    simp only [List.any_cons, List.any_nil, Bool.false_or]
    exact ih ht

lemma loopGuard_false_of_zero {Q : Type} (st : DomSt Q)
    (h : totalLen st.mask = 0) : loopGuard st = false := by
  unfold loopGuard
  rw [any_any_false_of_totalLen_zero st.mask _ h, Bool.false_and]

lemma iterLoop_succ {Q : Type} [LinearOrderedAddCommGroup Q] (cfunc : CFunc Q)
    (hlen : ∀ gs ss ns c, (cfunc gs ss ns c).map List.length = ns)
    (cond : Bool) :
    ∀ (f : ℕ) (st : DomSt Q), totalLen st.mask ≤ f →
      iterLoop cfunc cond f st = iterLoop cfunc cond (f + 1) st := by
  intro f
  induction f with
  | zero =>
    intro st hst
    have h0 : totalLen st.mask = 0 := Nat.le_zero.mp hst
    have hg := loopGuard_false_of_zero st h0
    simp [iterLoop, hg]
  | succ f ih =>
    intro st hst
    have unfold1 : ∀ k, iterLoop cfunc cond (k + 1) st =
        if loopGuard st then iterLoop cfunc cond k (stepSt cfunc cond st)
        else scatter2 st.rest st.mask := fun k => rfl
    rw [unfold1 f, unfold1 (f + 1)]
    by_cases hg : loopGuard st = true
    · have hlt := stepSt_measure cfunc hlen cond st hg
      have hle : totalLen (stepSt cfunc cond st).mask ≤ f := by omega
      rw [if_pos hg, if_pos hg]
      exact ih (stepSt cfunc cond st) hle
    · rw [if_neg hg, if_neg hg]

lemma iterLoop_fuel_eq {Q : Type} [LinearOrderedAddCommGroup Q]
    (cfunc : CFunc Q)
    (hlen : ∀ gs ss ns c, (cfunc gs ss ns c).map List.length = ns)
    (cond : Bool) :
    ∀ (f : ℕ) (st : DomSt Q), totalLen st.mask ≤ f →
      iterLoop cfunc cond f st = iterLoop cfunc cond (totalLen st.mask) st := by
  intro f
  induction f with
  | zero =>
    intro st h
    rw [Nat.le_zero.mp h]
  | succ f ih =>
    intro st h
    by_cases heq : totalLen st.mask = f + 1
    · rw [heq]
    · have hle : totalLen st.mask ≤ f := by omega
      rw [← iterLoop_succ cfunc hlen cond f st hle]
      exact ih st hle

/-- C4: `iterated_elimination` terminates, with the number of loop
iterations bounded by the total number of strategies: the loop guard
requires at least one strategy to have been eliminated, so each iteration
strictly shrinks the surviving-strategy count, and running the loop with
any fuel of at least `num_strats.sum` (in particular, unboundedly, as the
`while` loop does) computes the same mask as the embedding's
`num_strats.sum`-fuel run. -/
theorem iteratedElimination_fuel_adequate {Q : Type}
    [LinearOrderedAddCommGroup Q] (g : PayGame Q) (crit : Criterion)
    (cond : Bool) (f : ℕ) (hf : g.numRoleStrats.sum ≤ f) :
    iterLoop (critFun crit) cond f (initSt g crit cond) =
      iteratedElimination g crit cond := by
  have hlen : ∀ (gs : List (ProfGains Q)) ss ns c,
      ((critFun crit gs ss ns c).map List.length) = ns :=
    fun gs ss ns c => critFun_len crit gs ss ns c
  have hmu : totalLen (initSt g crit cond).mask = g.numRoleStrats.sum := by
    show totalLen (negMask (critFun crit (gainsOf g) (supportsOf g)
      g.numRoleStrats cond)) = g.numRoleStrats.sum
    rw [totalLen_negMask]
    unfold totalLen
    rw [critFun_len]
  rw [iteratedElimination]
  rw [iterLoop_fuel_eq (critFun crit) hlen cond f _ (by rw [hmu]; exact hf)]
  rw [iterLoop_fuel_eq (critFun crit) hlen cond g.numRoleStrats.sum _
    (by rw [hmu])]

/-- Witness for C4 at `gz` with fuel 5 ≥ 2 = total strategies. -/
theorem iteratedElimination_fuel_adequate_witness :
    gz.numRoleStrats.sum ≤ 5 ∧
    iterLoop (critFun Criterion.weakdom) true 5
        (initSt gz Criterion.weakdom true) =
      iteratedElimination gz Criterion.weakdom true :=
  ⟨by decide,
    iteratedElimination_fuel_adequate gz Criterion.weakdom true 5 (by decide)⟩


/-! ### C3: per-role survivors of `iterated_elimination` -/

lemma scatter_trueCount : ∀ (rr mr : List Bool), trueCount rr = mr.length →
    trueCount (scatter rr mr) = trueCount mr := by
  intro rr
  induction rr with
  | nil =>
    intro mr h
    simp only [trueCount, List.countP_nil] at h
    have : mr = [] := List.length_eq_zero.mp h.symm
    subst this
    rfl
  | cons b rest ih =>
    intro mr h
    cases b
    · simp only [scatter]
      simp only [trueCount, List.countP_cons] at h ⊢
      simp only [Bool.false_eq_true, decide_eq_true_eq, if_false] at h ⊢
      rw [Nat.add_zero] at h
      have := ih mr h
      simp only [trueCount] at this
      omega
    · cases mr with
      | nil =>
        simp only [trueCount, List.countP_cons, List.length_nil] at h
        simp at h
      | cons m0 mt =>
        simp only [scatter, List.headD_cons, List.tail_cons]
        simp only [trueCount, List.countP_cons, List.length_cons] at h ⊢
        simp only [decide_eq_true_eq, if_true] at h
        have hrest : trueCount rest = mt.length := by
          simp only [trueCount]
          omega
        have := ih mt hrest
        simp only [trueCount] at this
        omega

lemma scatter_any_pos : ∀ (rr mr : List Bool), trueCount rr = mr.length →
    mr.any (fun b => b) = true → (scatter rr mr).any (fun b => b) = true := by
  intro rr
  induction rr with
  | nil =>
    intro mr h hany
    simp only [trueCount, List.countP_nil] at h
    have : mr = [] := List.length_eq_zero.mp h.symm
    subst this
    cases hany
  | cons b rest ih =>
    intro mr h hany
    cases b
    · simp only [scatter, List.any_cons, Bool.false_or]
      simp only [trueCount, List.countP_cons, Bool.false_eq_true,
        decide_eq_true_eq, if_false, Nat.add_zero] at h
      exact ih mr h hany
    · cases mr with
      | nil => cases hany
      | cons m0 mt =>
        simp only [scatter, List.headD_cons, List.tail_cons, List.any_cons]
        simp only [trueCount, List.countP_cons, List.length_cons,
          decide_eq_true_eq, if_true] at h
        have hrest : trueCount rest = mt.length := by
          simp only [trueCount]
          omega
        cases hm0 : m0
        · rw [List.any_cons, hm0] at hany
          simp only [Bool.false_or] at hany
          rw [ih mt hrest hany]
          simp
        · simp

/-- The invariant the loop maintains between `rest` and `mask`: the roles
align, each role's surviving count in `rest` equals the width of its
current mask block, and each role's mask keeps at least one strategy. -/
def RoleInv (rest mask : Mask) : Prop :=
  List.Forall₂ (fun rr mr =>
    trueCount rr = mr.length ∧ mr.any (fun b => b) = true) rest mask

lemma scatter2_any_pos {rest mask : Mask} (h : RoleInv rest mask) :
    ∀ y ∈ scatter2 rest mask, y.any (fun b => b) = true := by
  induction h with
  | nil => intro y hy; cases hy
  | @cons rr mr l1 l2 hpair htail ih =>
    intro y hy
    rcases List.mem_cons.mp hy with rfl | hy
    · exact scatter_any_pos rr mr hpair.1 hpair.2
    · exact ih y hy

lemma forall₂_mem_right {α β : Type} {R : α → β → Prop} :
    ∀ {l1 : List α} {l2 : List β}, List.Forall₂ R l1 l2 →
      ∀ b ∈ l2, ∃ a ∈ l1, R a b := by
  intro l1 l2 h
  induction h with
  | nil => intro b hb; cases hb
  | @cons a b t1 t2 hab htail ih =>
    intro c hc
    rcases List.mem_cons.mp hc with rfl | hc
    · exact ⟨a, List.mem_cons_self _ _, hab⟩
    · rcases ih c hc with ⟨a2, ha2, hr⟩
      exact ⟨a2, List.mem_cons_of_mem _ ha2, hr⟩

lemma trueCount_pos {l : List Bool} (h : l.any (fun b => b) = true) :
    0 < trueCount l := by
  unfold trueCount
  rw [List.countP_pos]
  rcases List.any_eq_true.mp h with ⟨b, hb, hbt⟩
  exact ⟨b, hb, hbt⟩

lemma stepSt_inv {Q : Type} [LinearOrderedAddCommGroup Q] (cfunc : CFunc Q)
    (hlen : ∀ gs ss ns c, (cfunc gs ss ns c).map List.length = ns)
    (hkeep : ∀ gs ss ns c, (∀ n ∈ ns, 0 < n) →
      ∀ e ∈ cfunc gs ss ns c, e.any (fun b => !b) = true)
    (cond : Bool) (st : DomSt Q) (hinv : RoleInv st.rest st.mask) :
    RoleInv (stepSt cfunc cond st).rest (stepSt cfunc cond st).mask := by
  have hrest : (stepSt cfunc cond st).rest = scatter2 st.rest st.mask := rfl
  have hns2 : ∀ n ∈ st.mask.map trueCount, 0 < n := by
    intro n hn
    rcases List.mem_map.mp hn with ⟨mr, hmr, rfl⟩
    rcases forall₂_mem_right hinv mr hmr with ⟨rr, _, hpair⟩
    exact trueCount_pos hpair.2
  set e := cfunc
    (((st.gains.zip st.supports).filter (fun gs => profKeep st.mask gs.2)).map
      (fun gs => restrictGains st.mask gs.1))
    (((st.gains.zip st.supports).filter (fun gs => profKeep st.mask gs.2)).map
      (fun gs => restrictSupp st.mask gs.2))
    (st.mask.map trueCount) cond with he
  have hmask : (stepSt cfunc cond st).mask = negMask e := rfl
  have helen : e.map List.length = st.mask.map trueCount := hlen _ _ _ _
  have hkeepe : ∀ er ∈ e, er.any (fun b => !b) = true :=
    hkeep _ _ _ _ hns2
  have hlen12 : st.rest.length = st.mask.length := List.Forall₂.length_eq hinv
  have hlene : e.length = st.mask.length := by
    have := congrArg List.length helen
    simpa using this
  rw [RoleInv, List.forall₂_iff_get]
  constructor
  · rw [hrest, hmask]
    unfold scatter2 negMask
    rw [List.length_zipWith, List.length_map, hlen12, hlene]
    omega
  · intro k h1 h2
    have h1z : k < (List.zipWith scatter st.rest st.mask).length := h1
    have h2e : k < e.length := by
      have hx : k < (List.map (fun l => List.map (fun b => !b) l) e).length := h2
      simpa using hx
    have hkr : k < st.rest.length := by
      rw [List.length_zipWith] at h1z
      omega
    have hkm : k < st.mask.length := by
      rw [List.length_zipWith] at h1z
      omega
    have hval1 : (stepSt cfunc cond st).rest.get ⟨k, h1⟩ =
        scatter (st.rest.get ⟨k, hkr⟩) (st.mask.get ⟨k, hkm⟩) := by
      show (List.zipWith scatter st.rest st.mask).get ⟨k, h1z⟩ = _
      rw [List.get_zipWith]
    have hval2 : (stepSt cfunc cond st).mask.get ⟨k, h2⟩ =
        (e.get ⟨k, h2e⟩).map (fun b => !b) := by
      show (List.map (fun l => List.map (fun b => !b) l) e).get
        ⟨k, by simpa using h2e⟩ = _
      simp [List.get_map]
    rw [hval1, hval2]
    have hpair := (List.forall₂_iff_get.mp hinv).2 k hkr hkm
    have hlenek : (e.get ⟨k, h2e⟩).length =
        trueCount (st.mask.get ⟨k, hkm⟩) := by
      have h3 := congrArg (fun l => l.getD k 0) helen
      simp only at h3
      rw [getD_map_lt e List.length h2e 0 [],
        getD_map_lt st.mask trueCount hkm 0 []] at h3
      rw [getD_eq_get e [] h2e, getD_eq_get st.mask [] hkm] at h3
      exact h3
    constructor
    · rw [List.length_map, hlenek]
      exact scatter_trueCount _ _ hpair.1
    · rw [any_map2]
      exact hkeepe _ (List.get_mem e k h2e)

/-- C3 (amended): the loop applies the final criterion mask to `rest`
unconditionally, and the guard `np.any(role_counts(mask) > 1)` does not
stop an elimination that empties a role, so the returned restriction can
leave a role with zero strategies (see the counterexample).  What does
hold: for any criterion function that always keeps at least one strategy
per (non-empty) role, the returned mask has at least one `true` entry per
role, for every fuel and every loop state satisfying the `rest`/`mask`
alignment invariant. -/
theorem iterLoop_keeps_role {Q : Type} [LinearOrderedAddCommGroup Q]
    (cfunc : CFunc Q) (cond : Bool)
    (hlen : ∀ gs ss ns c, (cfunc gs ss ns c).map List.length = ns)
    (hkeep : ∀ gs ss ns c, (∀ n ∈ ns, 0 < n) →
      ∀ e ∈ cfunc gs ss ns c, e.any (fun b => !b) = true) :
    ∀ (f : ℕ) (st : DomSt Q), RoleInv st.rest st.mask →
      ∀ y ∈ iterLoop cfunc cond f st, y.any (fun b => b) = true := by
  intro f
  induction f with
  | zero =>
    intro st hinv
    exact scatter2_any_pos hinv
  | succ f ih =>
    intro st hinv
    have unfold1 : iterLoop cfunc cond (f + 1) st =
        if loopGuard st then iterLoop cfunc cond f (stepSt cfunc cond st)
        else scatter2 st.rest st.mask := rfl
    rw [unfold1]
    by_cases hg : loopGuard st = true
    · rw [if_pos hg]
      exact ih _ (stepSt_inv cfunc hlen hkeep cond st hinv)
    · rw [if_neg hg]
      exact scatter2_any_pos hinv

/-- Witness for the amended C3 theorem: a criterion that never eliminates
anything, at a one-role one-strategy state. -/
theorem iterLoop_keeps_role_witness :
    RoleInv [[true]] [[true]] ∧
    ∀ y ∈ iterLoop
        (fun (_ : List (ProfGains ℤ)) (_ : List ProfSupp) (ns : List ℕ)
          (_ : Bool) => ns.map (fun k => List.replicate k false)) true 3
        ⟨[1], [], [], [[true]], [[true]]⟩,
      y.any (fun b => b) = true := by
  have hinv : RoleInv [[true]] [[true]] :=
    List.Forall₂.cons ⟨by decide, by decide⟩ List.Forall₂.nil
  refine ⟨hinv, ?_⟩
  refine iterLoop_keeps_role _ true ?_ ?_ 3 _ hinv
  · intro gs ss ns c
    rw [List.map_map]
    have hcomp : (List.length ∘ fun k => List.replicate k false) =
        fun k => k := by
      funext k
      simp
    rw [hcomp]
    exact List.map_id ns
  · intro gs ss ns c hpos e he
    rcases List.mem_map.mp he with ⟨k, hk, rfl⟩
    have hkpos := hpos k hk
    cases k with
    | zero => omega
    | succ k =>
      rw [List.replicate_succ, List.any_cons]
      simp


/-! ### C5: characterization of `never_best_response` without missing data -/

lemma fmaxList_eq_none {Q : Type} [LinearOrderedAddCommGroup Q] :
    ∀ {l : List (Option Q)}, fmaxList l = none ↔ ∀ x ∈ l, x = none := by
  intro l
  induction l with
  | nil => simp [fmaxList]
  | cons a tl ih =>
    have hfold : fmaxList (a :: tl) = fmax2 a (fmaxList tl) := rfl
    rw [hfold]
    constructor
    · intro h x hx
      cases a with
      | none =>
        simp only [fmax2] at h
        rcases List.mem_cons.mp hx with rfl | hx
        · rfl
        · exact ih.mp h x hx
      | some y =>
        exfalso
        cases htl : fmaxList tl <;> rw [htl] at h <;> simp [fmax2] at h
    · intro h
      have ha := h a (List.mem_cons_self _ _)
      subst ha
      simp only [fmax2]
      exact ih.mpr (fun x hx => h x (List.mem_cons_of_mem _ hx))

lemma fmaxList_spec {Q : Type} [LinearOrderedAddCommGroup Q] :
    ∀ {l : List (Option Q)} {v : Q}, fmaxList l = some v →
      some v ∈ l ∧ ∀ x : Q, some x ∈ l → x ≤ v := by
  intro l
  induction l with
  | nil => intro v h; cases h
  | cons a tl ih =>
    intro v h
    have hfold : fmaxList (a :: tl) = fmax2 a (fmaxList tl) := rfl
    rw [hfold] at h
    cases a with
    | none =>
      simp only [fmax2] at h
      rcases ih h with ⟨hm, hb⟩
      refine ⟨List.mem_cons_of_mem _ hm, ?_⟩
      intro x hx
      rcases List.mem_cons.mp hx with hx | hx
      · cases hx
      · exact hb x hx
    | some y =>
      cases htl : fmaxList tl with
      | none =>
        rw [htl] at h
        simp only [fmax2] at h
        injection h with hv
        subst hv
        refine ⟨List.mem_cons_self _ _, ?_⟩
        intro x hx
        rcases List.mem_cons.mp hx with hx | hx
        · injection hx with hx
          exact le_of_eq hx
        · exfalso
          have := fmaxList_eq_none.mp htl (some x) hx
          cases this
      | some w =>
        rw [htl] at h
        simp only [fmax2] at h
        injection h with hv
        rcases ih htl with ⟨hmem, hbound⟩
        constructor
        · rcases max_choice y w with hc | hc
          · rw [← hv, hc]
            exact List.mem_cons_self _ _
          · rw [← hv, hc]
            exact List.mem_cons_of_mem _ hmem
        · intro x hx
          rcases List.mem_cons.mp hx with hx | hx
          · injection hx with hx
            rw [← hv, hx]
            exact le_max_left _ _
          · rw [← hv]
            exact le_trans (hbound x hx) (le_max_right _ _)

lemma insertIdx_append_cons {β : Type} :
    ∀ (A : List β) (x : β) (B : List β),
      List.insertIdx A.length x (A ++ B) = A ++ x :: B := by
  intro A
  induction A with
  | nil => intro x B; rfl
  | cons a A2 ih =>
    intro x B
    simp only [List.length_cons, List.cons_append, List.insertIdx_succ_cons]
    rw [ih]

lemma insertIdx_len_eq {β : Type} (k : ℕ) (A : List β) (x : β) (B : List β)
    (h : A.length = k) : List.insertIdx k x (A ++ B) = A ++ x :: B := by
  subst h
  exact insertIdx_append_cons A x B

/-- The self-gain row of source `i` in full-target indexing: the
`insertIdx` of the 0 into the slot row recovers one entry per target
`j < n`, the self slot holding 0. -/
lemma selfRow_gainsRow {Q : Type} [LinearOrderedAddCommGroup Q]
    (g : PayGame Q) (p : Prof) (row : Row Q) {r i : ℕ}
    (hr : r < g.numRoleStrats.length)
    (hi : i < g.numRoleStrats.getD r 0) :
    selfRow (gainsRow g p row) r i =
      (List.range (g.numRoleStrats.getD r 0)).map
        (fun j => if j = i then some 0 else gainEntry g p row r i j) := by
  unfold selfRow gainsRow
  rw [getD_map_range _ _ hr, getD_map_range _ _ hi]
  rw [targets_eq hi, List.map_append]
  rw [insertIdx_len_eq i ((List.range i).map
      (fun j => gainEntry g p row r i j)) (some 0)
    ((List.range' (i + 1) (g.numRoleStrats.getD r 0 - i - 1)).map
      (fun j => gainEntry g p row r i j)) (by simp)]
  have hsplit : List.range (g.numRoleStrats.getD r 0) =
      List.range i ++ List.range' i (g.numRoleStrats.getD r 0 - i) := by
    rw [List.range_eq_range', List.range_eq_range']
    have happ := List.range'_append 0 i (g.numRoleStrats.getD r 0 - i) 1
    simp only [Nat.one_mul, Nat.zero_add] at happ
    rw [happ]
    congr 1
    omega
  rw [hsplit]
  have h2 : g.numRoleStrats.getD r 0 - i =
      (g.numRoleStrats.getD r 0 - i - 1) + 1 := by omega
  rw [h2, List.range'_succ, List.map_append, List.map_cons]
  simp only [if_pos rfl]
  congr 1
  · apply List.map_congr_left
    intro j hj
    have : j < i := List.mem_range.mp hj
    rw [if_neg (by omega)]
  · congr 1
    apply List.map_congr_left
    intro j hj
    have := List.mem_range'_1.mp hj
    rw [if_neg (by omega)]

/-- The claim's value-level gain of "deviating to `j` from `i`" in one
profile, the self-deviation `j = i` counting as gain 0; under the
no-missing-data hypothesis every `gainEntry` is an actual number, which
`getD` extracts. -/
def selfGainValue {Q : Type} [LinearOrderedAddCommGroup Q] (g : PayGame Q)
    (p : Prof) (row : Row Q) (r i j : ℕ) : Q :=
  if j = i then 0 else (gainEntry g p row r i j).getD 0

/-- The claim's characterization of `never_best_response`, following the
spec's words: strategy `t` of role `r` is never a best response when in no
stored profile does the deviation to `t` from some supported strategy `i`
of the role (including the zero-gain self-deviation from `t` itself)
attain the maximum gain over that strategy's deviations in that profile. -/
def neverBRSpec {Q : Type} [LinearOrderedAddCommGroup Q] (g : PayGame Q)
    (r t : ℕ) : Bool :=
  !(g.data.any (fun pr =>
    (List.range (g.numRoleStrats.getD r 0)).any (fun i =>
      supportAtProf pr.1 r i &&
      (List.range (g.numRoleStrats.getD r 0)).all (fun j =>
        decide (selfGainValue g pr.1 pr.2 r i j ≤
          selfGainValue g pr.1 pr.2 r i t)))))


/-- C5: without missing data, `never_best_response` reports strategy `t` of
role `r` as never a best response exactly when there is no stored profile
in which the deviation to `t` from some supported strategy `i` of the role
— including the zero-gain self-deviation from `t` itself — attains the
maximum gain among that strategy's deviations in that profile. -/
theorem neverBestResp_iff {Q : Type} [LinearOrderedAddCommGroup Q]
    (g : PayGame Q) (cond : Bool) (r t : ℕ)
    (hnm : noMissing g = true)
    (hr : r < g.numRoleStrats.length)
    (ht : t < g.numRoleStrats.getD r 0) :
    ((neverBestResp g cond).getD r []).getD t false = neverBRSpec g r t := by
  unfold neverBestResp neverBestResponse neverBRSpec
  rw [getD_map_range _ _ hr, getD_map_range _ _ ht]
  congr 1
  simp only [gainsOf, supportsOf, List.zip_map', any_map2, suppAt_supportsOf]
  rw [any_swap]
  apply any_congr
  intro pr hpr
  apply any_congr
  intro i hiRange
  have hi : i < g.numRoleStrats.getD r 0 := List.mem_range.mp hiRange
  have hms : selfRow (gainsRow g pr.1 pr.2) r i =
      (List.range (g.numRoleStrats.getD r 0)).map
        (fun j => some (selfGainValue g pr.1 pr.2 r i j)) := by
    rw [selfRow_gainsRow g pr.1 pr.2 hr hi]
    apply List.map_congr_left
    intro j hj
    by_cases hji : j = i
    · rw [if_pos hji]
      unfold selfGainValue
      rw [if_pos hji]
    · rw [if_neg hji]
      unfold selfGainValue
      rw [if_neg hji]
      have hjt : j ∈ targets (g.numRoleStrats.getD r 0) i :=
        mem_targets.mpr ⟨List.mem_range.mp hj, hji⟩
      have hno := noMissing_entry hnm hpr hr hi hjt
      cases hge : gainEntry g pr.1 pr.2 r i j with
      | none =>
        rw [hge] at hno
        cases hno
      | some v => rfl
  rw [hms]
  have hmemt : some (selfGainValue g pr.1 pr.2 r i t) ∈
      (List.range (g.numRoleStrats.getD r 0)).map
        (fun j => some (selfGainValue g pr.1 pr.2 r i j)) :=
    List.mem_map.mpr ⟨t, List.mem_range.mpr ht, rfl⟩
  cases hfm : fmaxList ((List.range (g.numRoleStrats.getD r 0)).map
      (fun j => some (selfGainValue g pr.1 pr.2 r i j))) with
  | none =>
    exfalso
    have hcon := fmaxList_eq_none.mp hfm _ hmemt
    cases hcon
  | some v =>
    have hgt : ((List.range (g.numRoleStrats.getD r 0)).map
        (fun j => some (selfGainValue g pr.1 pr.2 r i j))).getD t none =
        some (selfGainValue g pr.1 pr.2 r i t) := getD_map_range _ _ ht
    rw [hgt]
    simp only [isNaN, Bool.and_false, Bool.or_false]
    rcases fmaxList_spec hfm with ⟨hvmem, hvbound⟩
    have hkey : oeq (some v) (some (selfGainValue g pr.1 pr.2 r i t)) =
        (List.range (g.numRoleStrats.getD r 0)).all (fun j =>
          decide (selfGainValue g pr.1 pr.2 r i j ≤
            selfGainValue g pr.1 pr.2 r i t)) := by
      show decide (v = selfGainValue g pr.1 pr.2 r i t) = _
      rw [Bool.eq_iff_iff, decide_eq_true_eq, List.all_eq_true]
      constructor
      · intro hv j hj
        rw [decide_eq_true_eq]
        have hb := hvbound (selfGainValue g pr.1 pr.2 r i j)
          (List.mem_map.mpr ⟨j, hj, rfl⟩)
        exact hv ▸ hb
      · intro hall
        rcases List.mem_map.mp hvmem with ⟨j0, hj0, hj0eq⟩
        injection hj0eq with hj0eq
        have h1 : v ≤ selfGainValue g pr.1 pr.2 r i t := by
          rw [← hj0eq]
          exact decide_eq_true_eq.mp (hall j0 hj0)
        have h2 : selfGainValue g pr.1 pr.2 r i t ≤ v := hvbound _ hmemt
        exact le_antisymm h1 h2
    rw [hkey, Bool.and_comm]

/-- Witness for C5 at `gz`, role 0, strategy 0. -/
theorem neverBestResp_iff_witness :
    (noMissing gz = true ∧ 0 < gz.numRoleStrats.length ∧
      0 < gz.numRoleStrats.getD 0 0) ∧
    ((neverBestResp gz true).getD 0 []).getD 0 false = neverBRSpec gz 0 0 :=
  ⟨⟨by decide, by decide, by decide⟩,
    neverBestResp_iff gz true 0 0 (by decide) (by decide) (by decide)⟩

end GameAnalysis
